import Mathlib

/-!
jivesearch: bang dispatch, bang suggestions and the stock-quote answerer.

A shallow embedding of `bangs/bangs.go` and `instant/stock.go`.

Go strings are modelled as the list of their code points (valid UTF-8 only).
The parts of the Go standard library the code calls (`strings`, `unicode`)
are transcribed below.  The Unicode tables above U+007F are not reproduced:
they are a parameter (`UnicodeTables`), and every definition that consults
them takes that parameter.  Below U+0080 the functions are exactly Go's.
-/

set_option linter.dupNamespace false

namespace Jivesearch

/-- Go string (valid UTF-8), as its sequence of code points. -/
abbrev Str := List Char

/-- Unicode data above U+007F consulted by package `unicode`: the simple case
mappings and the letter and digit categories.  The fields are only ever
applied to code points above U+007F. -/
structure UnicodeTables where
  lower : Char → Char
  upper : Char → Char
  title : Char → Char
  letter : Char → Bool
  digit : Char → Bool

/-- Tables that leave every code point above U+007F unchanged and classify
none of them as a letter or a digit; used to evaluate ASCII inputs. -/
def asciiTables : UnicodeTables :=
  { lower := fun r => r, upper := fun r => r, title := fun r => r,
    letter := fun _ => false, digit := fun _ => false }

namespace unicode

/-- Go `unicode.IsSpace`: the Latin-1 switch, then the `White_Space` table. -/
def IsSpace (r : Char) : Bool :=
  let n := r.toNat
  if n ≤ 0xFF then
    n == 0x09 || n == 0x0A || n == 0x0B || n == 0x0C || n == 0x0D || n == 0x20
      || n == 0x85 || n == 0xA0
  else
    n == 0x1680 || (0x2000 ≤ n && n ≤ 0x200A) || n == 0x2028 || n == 0x2029
      || n == 0x202F || n == 0x205F || n == 0x3000

/-- Go `unicode.ToLower`. -/
def ToLower (T : UnicodeTables) (r : Char) : Char :=
  if r.toNat ≤ 0x7F then
    if 0x41 ≤ r.toNat ∧ r.toNat ≤ 0x5A then Char.ofNat (r.toNat + 0x20) else r
  else T.lower r

/-- Go `unicode.ToUpper`. -/
def ToUpper (T : UnicodeTables) (r : Char) : Char :=
  if r.toNat ≤ 0x7F then
    if 0x61 ≤ r.toNat ∧ r.toNat ≤ 0x7A then Char.ofNat (r.toNat - 0x20) else r
  else T.upper r

/-- Go `unicode.ToTitle`. -/
def ToTitle (T : UnicodeTables) (r : Char) : Char :=
  if r.toNat ≤ 0x7F then
    if 0x61 ≤ r.toNat ∧ r.toNat ≤ 0x7A then Char.ofNat (r.toNat - 0x20) else r
  else T.title r

end unicode

namespace strings

/-- Loop of `strings.Fields`: `cur` is the field being read. -/
def fieldsAux : Str → Str → List Str
  | [], cur => if cur = [] then [] else [cur]
  | r :: rs, cur =>
    if unicode.IsSpace r then
      if cur = [] then fieldsAux rs [] else cur :: fieldsAux rs []
    else fieldsAux rs (cur ++ [r])

/-- Go `strings.Fields`: the maximal runs of non-space code points. -/
def Fields (s : Str) : List Str := fieldsAux s []

/-- Go `strings.HasPrefix`. -/
def HasPrefix (s pre : Str) : Bool := decide (s.take pre.length = pre)

/-- Go `strings.HasSuffix`. -/
def HasSuffix (s suf : Str) : Bool := decide (s.drop (s.length - suf.length) = suf)

/-- Go `strings.Trim`: drop the leading and trailing code points that belong
to `cutset`. -/
def Trim (s cutset : Str) : Str :=
  ((s.dropWhile (fun r => decide (r ∈ cutset))).reverse.dropWhile
    (fun r => decide (r ∈ cutset))).reverse

/-- Go `strings.ToLower` (a code point by code point map). -/
def ToLower (T : UnicodeTables) (s : Str) : Str := s.map (unicode.ToLower T)

/-- Go `strings.ToUpper`. -/
def ToUpper (T : UnicodeTables) (s : Str) : Str := s.map (unicode.ToUpper T)

/-- Go `strings.Join`. -/
def Join : List Str → Str → Str
  | [], _ => []
  | [a], _ => a
  | a :: b :: rest, sep => a ++ sep ++ Join (b :: rest) sep

/-- Scan of `strings.Replace(s, old, new, -1)` for a non-empty `old`:
`skip` counts the code points of a match still to be passed over. -/
def replaceAux (old new : Str) : Nat → Str → Str
  | _, [] => []
  | skip + 1, _ :: rs => replaceAux old new skip rs
  | 0, r :: rs =>
    if (r :: rs).take old.length = old then new ++ replaceAux old new (old.length - 1) rs
    else r :: replaceAux old new 0 rs

/-- Go `strings.Replace(s, old, new, -1)`: every non-overlapping occurrence of
`old`, scanning from the left, becomes `new`; an empty `old` matches before
every code point and at the end. -/
def ReplaceAll (s old new : Str) : Str :=
  if old = [] then new ++ s.flatMap (fun r => r :: new) else replaceAux old new 0 s

/-- Go `strings.isSeparator`, the word boundary test of `strings.Title`. -/
def isSeparator (T : UnicodeTables) (r : Char) : Bool :=
  let n := r.toNat
  if n ≤ 0x7F then
    if 0x30 ≤ n ∧ n ≤ 0x39 then false
    else if 0x61 ≤ n ∧ n ≤ 0x7A then false
    else if 0x41 ≤ n ∧ n ≤ 0x5A then false
    else if n = 0x5F then false
    else true
  else if T.letter r || T.digit r then false
  else unicode.IsSpace r

/-- Closure of `strings.Title`: `prev` is the code point seen before. -/
def titleAux (T : UnicodeTables) : Char → Str → Str
  | _, [] => []
  | prev, r :: rs =>
    (if isSeparator T prev then unicode.ToTitle T r else r) :: titleAux T r rs

/-- Go `strings.Title`. -/
def Title (T : UnicodeTables) (s : Str) : Str := titleAux T ' ' s

end strings

/-! ## Package `bangs` -/

/-- Go `language.Region`, of which the code only reads `String()`. -/
structure Region where
  String : Str

/-- Go `language.Tag`, of which the code only reads `String()`. -/
structure Tag where
  String : Str

/-- Go `type transformation func(string) string`. -/
abbrev transformation := Str → Str

/-- Go `Bang`; `Regions` is the map as its list of entries, read by `mapLookup`. -/
structure Bang where
  Name : Str
  Triggers : List Str
  Regions : List (Str × Str)
  Transformations : List transformation

/-- Go `Suggestion`. -/
structure Suggestion where
  Trigger : Str
  Name : Str
deriving DecidableEq

/-- Go `Results`. -/
structure Results where
  Suggestions : List Suggestion
deriving DecidableEq

/-- Go `error`: `none` is `nil`. -/
abbrev error := Option Str

/-- Go `Suggester`, reduced to the one method `Bangs.Suggest` calls. -/
structure Suggester where
  suggest : Str → Int → Results × error

/-- Go `Bangs`; the embedded `Suggester` interface may be `nil` (`none`). -/
structure Bangs where
  Bangs : List Bang
  Suggester : Option Suggester

/-- Go `const def = "default"`. -/
def defKey : Str := "default".toList

/-- Go map index `m[key]` with the comma-ok form. -/
def mapLookup (key : Str) : List (Str × Str) → Option Str
  | [] => none
  | (k, v) :: rest => if k = key then some v else mapLookup key rest

/-- Go `trigger`. -/
def trigger (k : Str) : List Str → Bool
  | [] => false
  | t :: rest => if k = t then true else trigger k rest

/-- Go `wikipediaCanonical`. -/
def wikipediaCanonical (T : UnicodeTables) (q : Str) : Str :=
  strings.ReplaceAll (strings.Title T (strings.ToLower T q)) " ".toList "_".toList

/-- The slice expression `s[lo:hi]` on a slice whose capacity equals its
length; `none` is the run-time panic of an out-of-range bound. -/
def slice (s : List Str) (lo hi : Nat) : Option (List Str) :=
  if lo ≤ hi ∧ hi ≤ s.length then some ((s.take hi).drop lo) else none

/-- The placeholder for the search term. -/
def termPlaceholder : Str := "\x7b\x7b\x7bterm\x7d\x7d\x7d".toList

/-- The placeholder for the language. -/
def langPlaceholder : Str := "\x7b\x7b\x7blang\x7d\x7d\x7d".toList

/-- The loop `for _, reg := range []string{...}` of `Detect`: the first key
present in `bng.Regions` gives the template, which is filled in. -/
def detectRegions (bng : Bang) (remainder : Str) (l : Tag) : List Str → Option Str
  | [] => none
  | reg :: regs =>
    match mapLookup reg bng.Regions with
    | some u =>
      some (strings.ReplaceAll (strings.ReplaceAll u termPlaceholder remainder)
        langPlaceholder l.String)
    | none => detectRegions bng remainder l regs

/-- The loop `for _, bng := range b.Bangs` of `Detect` for the token at index
`i` with key `k`.  `fields` is the backing array of the token slice:
`append(fields[:i], fields[i+1:]...)` writes into it, so the array is part of
the state.  The result is `none` on a panic, otherwise the URL (if a bang
returned one) and the array as the loop left it. -/
def detectBangs (T : UnicodeTables) (k : Str) (i : Nat) (region : Region) (l : Tag) :
    List Bang → List Str → Option (Option Str × List Str)
  | [], fields => some (none, fields)
  | bng :: rest, fields =>
    if trigger k bng.Triggers = false then detectBangs T k i region l rest fields
    else
      match slice fields 0 i, slice fields (i + 1) fields.length with
      | some a, some b =>
        let kept := a ++ b
        let fields' := kept ++ fields.drop kept.length
        let remainder := bng.Transformations.foldl (fun r fn => fn r) (strings.Join kept " ".toList)
        match detectRegions bng remainder l [strings.ToLower T region.String, defKey] with
        | some u => some (some u, fields')
        | none => detectBangs T k i region l rest fields'
      | _, _ => none

/-- The loop `for i, field := range fields` of `Detect`, over the indices
still to visit; `field` is read from the array as it is at that iteration. -/
def detectFields (T : UnicodeTables) (bangs : List Bang) (region : Region) (l : Tag) :
    List Nat → List Str → Option (Str × Bool)
  | [], _ => some ([], false)
  | i :: is, fields =>
    let field := fields.getD i []
    if field = "!".toList
        ∨ (strings.HasPrefix field "!".toList = false ∧ strings.HasSuffix field "!".toList = false) then
      detectFields T bangs region l is fields
    else
      let k := strings.ToLower T (strings.Trim field "!".toList)
      match detectBangs T k i region l bangs fields with
      | none => none
      | some (some u, _) => some (u, true)
      | some (none, fields') => detectFields T bangs region l is fields'

/-- Go `Bangs.Detect`; `none` is a panic. -/
def Detect (T : UnicodeTables) (b : Bangs) (q : Str) (region : Region) (l : Tag) :
    Option (Str × Bool) :=
  let fields := strings.Fields q
  detectFields T b.Bangs region l (List.range fields.length) fields

/-- Go `New`: the default registry (its `Suggester` is left `nil`). -/
def New (T : UnicodeTables) : Bangs :=
  { Suggester := none
    Bangs := [
      { Name := "Amazon".toList, Triggers := ["a".toList, "amazon".toList],
        Regions := [
          (defKey, "https://www.amazon.com/s/ref=nb_sb_noss?url=search-alias%3Daps&field-keywords=\x7b\x7b\x7bterm\x7d\x7d\x7d".toList),
          ("ca".toList, "https://www.amazon.ca/s/ref=nb_sb_noss?url=search-alias%3Daps&field-keywords=\x7b\x7b\x7bterm\x7d\x7d\x7d".toList),
          ("fr".toList, "https://www.amazon.fr/s/ref=nb_sb_noss?url=search-alias%3Daps&field-keywords=\x7b\x7b\x7bterm\x7d\x7d\x7d".toList),
          ("uk".toList, "https://www.amazon.co.uk/s/ref=nb_sb_noss?url=search-alias%3Daps&field-keywords=\x7b\x7b\x7bterm\x7d\x7d\x7d".toList)],
        Transformations := [] },
      { Name := "Bing".toList, Triggers := ["b".toList, "bing".toList],
        Regions := [
          (defKey, "https://www.bing.com/search?q=\x7b\x7b\x7bterm\x7d\x7d\x7d".toList)],
        Transformations := [] },
      { Name := "GitHub".toList, Triggers := ["gh".toList, "git".toList, "github".toList],
        Regions := [
          (defKey, "https://github.com/search?q=\x7b\x7b\x7bterm\x7d\x7d\x7d&type=Everything&repo=&langOverride=&start_value=1".toList)],
        Transformations := [] },
      { Name := "Google".toList, Triggers := ["g".toList, "google".toList],
        Regions := [
          (defKey, "https://encrypted.google.com/search?hl=\x7b\x7b\x7blang\x7d\x7d\x7d&q=\x7b\x7b\x7bterm\x7d\x7d\x7d".toList),
          ("ca".toList, "https://www.google.ca/search?q=\x7b\x7b\x7bterm\x7d\x7d\x7d".toList),
          ("fr".toList, "https://www.google.fr/search?hl=\x7b\x7b\x7blang\x7d\x7d\x7d&q=\x7b\x7b\x7bterm\x7d\x7d\x7d".toList),
          ("ru".toList, "https://www.google.ru/search?hl=\x7b\x7b\x7blang\x7d\x7d\x7d&q=\x7b\x7b\x7bterm\x7d\x7d\x7d".toList)],
        Transformations := [] },
      { Name := "Google France".toList, Triggers := ["gfr".toList, "googlefr".toList],
        Regions := [
          (defKey, "https://www.google.fr/search?hl=\x7b\x7b\x7blang\x7d\x7d\x7d&q=\x7b\x7b\x7bterm\x7d\x7d\x7d".toList)],
        Transformations := [] },
      { Name := "Google Images".toList, Triggers := ["gi".toList],
        Regions := [
          (defKey, "https://www.google.com/search?q=\x7b\x7b\x7bterm\x7d\x7d\x7d&source=lnms&tbm=isch".toList)],
        Transformations := [] },
      { Name := "Google Russia".toList, Triggers := ["gru".toList, "googleru".toList],
        Regions := [
          (defKey, "https://www.google.ru/search?hl=\x7b\x7b\x7blang\x7d\x7d\x7d&q=\x7b\x7b\x7bterm\x7d\x7d\x7d".toList)],
        Transformations := [] },
      { Name := "Reddit".toList, Triggers := ["reddit".toList],
        Regions := [
          (defKey, "https://www.reddit.com/search?q=\x7b\x7b\x7bterm\x7d\x7d\x7d&restrict_sr=&sort=relevance&t=all".toList)],
        Transformations := [] },
      { Name := "Stack Overflow".toList, Triggers := ["so".toList, "stackoverflow".toList],
        Regions := [
          (defKey, "https://stackoverflow.com/search?q=\x7b\x7b\x7bterm\x7d\x7d\x7d".toList)],
        Transformations := [] },
      { Name := "Wikipedia".toList, Triggers := ["w".toList, "wikipedia".toList],
        Regions := [
          (defKey, "https://en.wikipedia.org/wiki/\x7b\x7b\x7bterm\x7d\x7d\x7d".toList),
          ("es".toList, "https://es.wikipedia.org/wiki/\x7b\x7b\x7bterm\x7d\x7d\x7d".toList),
          ("de".toList, "https://de.wikipedia.org/wiki/\x7b\x7b\x7bterm\x7d\x7d\x7d".toList),
          ("fr".toList, "https://fr.wikipedia.org/wiki/\x7b\x7b\x7bterm\x7d\x7d\x7d".toList)],
        Transformations := [wikipediaCanonical T] }] }

/-- The loops of `Bangs.Suggest` over the bangs and their triggers for one
suggestion `s`: each trigger equal to `s.Trigger` overwrites `s.Name`. -/
def fillName (bangs : List Bang) (s : Suggestion) : Suggestion :=
  bangs.foldl
    (fun s bng => bng.Triggers.foldl
      (fun s trigger => if trigger = s.Trigger then { s with Name := bng.Name } else s) s)
    s

/-- Go `Bangs.Suggest`; `none` is the panic of calling a `nil` `Suggester`. -/
def Suggest (b : Bangs) (term : Str) (size : Int) : Option (Results × error) :=
  match b.Suggester with
  | none => none
  | some sg =>
    let (res, err) := sg.suggest term size
    if err ≠ none then some (res, err)
    else some ({ Suggestions := res.Suggestions.map (fillName b.Bangs) }, err)

/-! ## Package `regexp`, as far as the patterns of `instant/stock.go` go -/

namespace regexp

/-- An item of a bracket expression: a code point, an escaped code point, or
a range. -/
inductive ClassItem where
  | chr (r : Char)
  | esc (r : Char)
  | range (lo hi : Char)

/-- Whether the item admits the code point. -/
def ClassItem.admits (r : Char) : ClassItem → Bool
  | ClassItem.chr x => decide (r = x)
  | ClassItem.esc x => decide (r = x)
  | ClassItem.range lo hi => decide (lo.toNat ≤ r.toNat ∧ r.toNat ≤ hi.toNat)

/-- The item as written in a pattern. -/
def ClassItem.toPattern : ClassItem → Str
  | ClassItem.chr x => [x]
  | ClassItem.esc x => ['\\', x]
  | ClassItem.range lo hi => [lo, '-', hi]

/-- Syntax tree of a pattern: literal text, bracket expression, `\s`, `^`,
`$` (without the multi-line flag: begin and end of text), concatenation,
alternation, greedy `?` and `{min,max}`, and a named capture group. -/
inductive Re where
  | lits (s : Str)
  | cls (items : List ClassItem)
  | perlSpace
  | bol
  | eol
  | cat (a b : Re)
  | alt (a b : Re)
  | opt (a : Re)
  | rep (a : Re) (min max : Nat)
  | group (name : Str) (a : Re)

/-- The pattern text of a tree. -/
def Re.toPattern : Re → Str
  | Re.lits s => s
  | Re.cls items => "[".toList ++ items.flatMap ClassItem.toPattern ++ "]".toList
  | Re.perlSpace => "\\s".toList
  | Re.bol => "^".toList
  | Re.eol => "$".toList
  | Re.cat a b => a.toPattern ++ b.toPattern
  | Re.alt a b => a.toPattern ++ "|".toList ++ b.toPattern
  | Re.opt a => a.toPattern ++ "?".toList
  | Re.rep a min max =>
    a.toPattern ++ "\x7b".toList ++ Nat.toDigits 10 min ++ ",".toList ++ Nat.toDigits 10 max
      ++ "\x7d".toList
  | Re.group name a => "(?P<".toList ++ name ++ ">".toList ++ a.toPattern ++ ")".toList

/-- A thread of the matcher: the position in the text, the text still to be
read, and the capture groups closed so far (the latest first). -/
structure MState where
  pos : Nat
  rest : Str
  caps : List (Str × Str)
deriving DecidableEq

/-- Greedy bounded repetition of a matcher `f`: the threads that repeat once
more come before the thread that stops. -/
def runRep (f : MState → List MState) : Nat → Nat → MState → List MState
  | _, 0, st => [st]
  | 0, max + 1, st => (f st).flatMap (runRep f 0 max) ++ [st]
  | min + 1, max + 1, st => (f st).flatMap (runRep f min max)

/-- The threads that match the tree from a given thread, in the order of
preference of Go's `regexp` (the leftmost-first rule of a backtracking
matcher: the left alternative first, a greedy operator first taking more). -/
def run : Re → MState → List MState
  | Re.lits s => fun st =>
    if st.rest.take s.length = s then
      [{ st with pos := st.pos + s.length, rest := st.rest.drop s.length }]
    else []
  | Re.cls items => fun st =>
    match st.rest with
    | [] => []
    | r :: rs => if items.any (ClassItem.admits r) then [{ st with pos := st.pos + 1, rest := rs }]
      else []
  | Re.perlSpace => fun st =>
    match st.rest with
    | [] => []
    | r :: rs =>
      if r = '\t' ∨ r = '\n' ∨ r = '\x0c' ∨ r = '\r' ∨ r = ' ' then
        [{ st with pos := st.pos + 1, rest := rs }]
      else []
  | Re.bol => fun st => if st.pos = 0 then [st] else []
  | Re.eol => fun st => if st.rest = [] then [st] else []
  | Re.cat a b => fun st => (run a st).flatMap (run b)
  | Re.alt a b => fun st => run a st ++ run b st
  | Re.opt a => fun st => run a st ++ [st]
  | Re.rep a min max => fun st => runRep (run a) min max st
  | Re.group name a => fun st =>
    (run a st).map (fun st2 =>
      { st2 with caps := (name, st.rest.take (st2.pos - st.pos)) :: st2.caps })

/-- The search of an unanchored match: the preferred thread at the leftmost
start position that has one. -/
def findFrom (re : Re) : Nat → Str → Option MState
  | pos, [] => (run re { pos := pos, rest := [], caps := [] }).head?
  | pos, r :: rs =>
    match run re { pos := pos, rest := r :: rs, caps := [] } with
    | st :: _ => some st
    | [] => findFrom re (pos + 1) rs

/-- Go `Regexp.FindStringSubmatch`, as the final thread of the match (`none`
when there is no match). -/
def FindStringSubmatch (re : Re) (s : Str) : Option MState := findFrom re 0 s

/-- The text of the named group in a match; empty when the group took no part. -/
def MState.group (st : MState) (name : Str) : Str :=
  match st.caps.find? (fun c => decide (c.1 = name)) with
  | some c => c.2
  | none => []

/-- The code points a match of the tree can consume. -/
def mayConsume : Re → Char → Bool
  | Re.lits s, c => decide (c ∈ s)
  | Re.cls items, c => items.any (ClassItem.admits c)
  | Re.perlSpace, c => decide (c = '\t' ∨ c = '\n' ∨ c = '\x0c' ∨ c = '\r' ∨ c = ' ')
  | Re.bol, _ => false
  | Re.eol, _ => false
  | Re.cat a b, c => mayConsume a c || mayConsume b c
  | Re.alt a b, c => mayConsume a c || mayConsume b c
  | Re.opt a, c => mayConsume a c
  | Re.rep a _ _, c => mayConsume a c
  | Re.group _ a, c => mayConsume a c

/-- The tree has no capture group. -/
def noGroup : Re → Bool
  | Re.cat a b => noGroup a && noGroup b
  | Re.alt a b => noGroup a && noGroup b
  | Re.opt a => noGroup a
  | Re.rep a _ _ => noGroup a
  | Re.group _ _ => false
  | _ => true

end regexp

/-! ## Package `instant`: the stock quote answerer -/

/-- The slice `triggers` of `setRegex` after its loop: each trigger followed
by `[s]?`, as pattern text. -/
def stockTriggerPatterns : List Str :=
  ["quote".toList, "stock".toList, "stock quote".toList].map (fun tr => tr ++ "[s]?".toList)

/-- The string `t` of `setRegex`. -/
def stockTriggerPattern : Str := strings.Join stockTriggerPatterns "|".toList

/-- The string `ticker` of `setRegex`. -/
def stockTickerPattern : Str := "^[\\$]?[a-zA-Z]\x7b1,5\x7d[\\.]?[a-zA-Z]?".toList

/-- The two pattern texts `setRegex` compiles, in order. -/
def stockPatterns : List Str :=
  ["^(?P<trigger>".toList ++ stockTriggerPattern ++ ")?\\s?(?P<remainder>".toList
      ++ stockTickerPattern ++ ")$".toList,
    "^(?P<remainder>".toList ++ stockTickerPattern ++ ")\\s(?P<trigger>".toList
      ++ stockTriggerPattern ++ ")?$".toList]

/-- The tree of one trigger: the word followed by `[s]?`. -/
def stockTriggerWord (tr : Str) : regexp.Re :=
  regexp.Re.cat (regexp.Re.lits tr) (regexp.Re.opt (regexp.Re.cls [regexp.ClassItem.chr 's']))

/-- The tree of `t`: `quote[s]?|stock[s]?|stock quote[s]?`. -/
def stockTrigger : regexp.Re :=
  regexp.Re.alt (stockTriggerWord "quote".toList)
    (regexp.Re.alt (stockTriggerWord "stock".toList) (stockTriggerWord "stock quote".toList))

/-- The bracket expression `[a-zA-Z]`. -/
def stockLetter : regexp.Re :=
  regexp.Re.cls [regexp.ClassItem.range 'a' 'z', regexp.ClassItem.range 'A' 'Z']

/-- The tree of `ticker`, its leading `^` included. -/
def stockTicker : regexp.Re :=
  regexp.Re.cat regexp.Re.bol
    (regexp.Re.cat (regexp.Re.opt (regexp.Re.cls [regexp.ClassItem.esc '$']))
      (regexp.Re.cat (regexp.Re.rep stockLetter 1 5)
        (regexp.Re.cat (regexp.Re.opt (regexp.Re.cls [regexp.ClassItem.esc '.']))
          (regexp.Re.opt stockLetter))))

/-- Go `StockQuote.setRegex`: the two regular expressions appended to
`s.regex`, as the trees of `stockPatterns`. -/
def setRegex : List regexp.Re :=
  [regexp.Re.cat regexp.Re.bol
      (regexp.Re.cat (regexp.Re.opt (regexp.Re.group "trigger".toList stockTrigger))
        (regexp.Re.cat (regexp.Re.opt regexp.Re.perlSpace)
          (regexp.Re.cat (regexp.Re.group "remainder".toList stockTicker) regexp.Re.eol))),
    regexp.Re.cat regexp.Re.bol
      (regexp.Re.cat (regexp.Re.group "remainder".toList stockTicker)
        (regexp.Re.cat regexp.Re.perlSpace
          (regexp.Re.cat (regexp.Re.opt (regexp.Re.group "trigger".toList stockTrigger))
            regexp.Re.eol)))]

/-- The first regular expression of `setRegex`. -/
def stockRegex1 : regexp.Re := setRegex.getD 0 regexp.Re.eol

/-- The second regular expression of `setRegex`. -/
def stockRegex2 : regexp.Re := setRegex.getD 1 regexp.Re.eol

/-- Modelled from the spec: the interface `stock.Fetcher` (package
`instant/stock`, not among the sources), an opaque capability that takes a
ticker and returns a quote or an error.  `Quote` stands for `stock.Quote`;
the pointer `*stock.Quote` is an `Option` (`none` is `nil`). -/
structure Fetcher (Quote : Type) where
  Fetch : Str → Option Quote × error

/-- Modelled from the spec: the struct `Answer` with its embedded `Data`
(declared in `instant/instant.go`, not among the sources), with the fields
of section 3 of the specification that `stock.go` reads or writes.
`Solution` is an `interface{}`: `none` is the `nil` interface, `some p` holds
the pointer `p`.  `Typ` is the field `Type`. -/
structure Answer (Quote : Type) where
  language : Tag
  regex : List regexp.Re
  remainder : Str
  Typ : Str
  Triggered : Bool
  Solution : Option (Option Quote)
  Err : error
  Cache : Bool

/-- Go `StockQuote`; the `Fetcher` interface may be `nil` (`none`). -/
structure StockQuote (Quote : Type) where
  Fetcher : Option (Fetcher Quote)
  Answer : Answer Quote

/-- The local variable `ticker` of `StockQuote.solve`. -/
def StockQuote.ticker {Quote : Type} (T : UnicodeTables) (s : StockQuote Quote) : Str :=
  strings.ToUpper T (strings.ReplaceAll s.Answer.remainder "$".toList [])

/-- Go `StockQuote.solve` (the request argument is not used).  The method
`SortHistorical` of `*stock.Quote` is not among the sources and is a
parameter.  The result is the answerer after the call; `none` is the panic
of calling a `nil` `Fetcher`. -/
def StockQuote.solve {Quote : Type} (T : UnicodeTables)
    (SortHistorical : Option Quote → Option Quote) (s : StockQuote Quote) :
    Option (StockQuote Quote) :=
  match s.Fetcher with
  | none => none
  | some f =>
    match f.Fetch (StockQuote.ticker T s) with
    | (_, some err) => some { s with Answer := { s.Answer with Err := some err } }
    | (resp, none) =>
      some { s with Answer := { s.Answer with Solution := some (SortHistorical resp) } }

/-- An ASCII letter. -/
def isAsciiLetter (c : Char) : Prop :=
  (0x61 ≤ c.toNat ∧ c.toNat ≤ 0x7A) ∨ (0x41 ≤ c.toNat ∧ c.toNat ≤ 0x5A)

instance (c : Char) : Decidable (isAsciiLetter c) := by
  unfold isAsciiLetter; infer_instance

/-- The tickers of the specification: an optional `$`, one to five ASCII
letters, an optional `.`, an optional ASCII letter. -/
def isTicker (s : Str) : Prop :=
  ∃ d l1 dot l2 : Str, s = d ++ l1 ++ dot ++ l2
    ∧ (d = [] ∨ d = ['$'])
    ∧ 1 ≤ l1.length ∧ l1.length ≤ 5 ∧ (∀ c ∈ l1, isAsciiLetter c)
    ∧ (dot = [] ∨ dot = ['.'])
    ∧ l2.length ≤ 1 ∧ (∀ c ∈ l2, isAsciiLetter c)

/-- The trigger words of the specification. -/
def stockTriggerWords : List Str :=
  ["quote".toList, "quotes".toList, "stock".toList, "stocks".toList, "stock quote".toList,
    "stock quotes".toList]

/-! ## Vocabulary of the statements -/

/-- The token is a bang that some entry of the registry owns: it is not `!`,
it starts or ends with `!`, and its key (the token with the `!` at both ends
removed, lowercased) is a trigger of some bang. -/
def fires (T : UnicodeTables) (bangs : List Bang) (field : Str) : Prop :=
  field ≠ "!".toList
    ∧ (strings.HasPrefix field "!".toList = true ∨ strings.HasSuffix field "!".toList = true)
    ∧ ∃ bng ∈ bangs, strings.ToLower T (strings.Trim field "!".toList) ∈ bng.Triggers

/-- The bang has a `default` region. -/
def hasDefault (bng : Bang) : Prop := (mapLookup defKey bng.Regions).isSome = true

/-- The transformations of a bang applied left to right. -/
def transform (bng : Bang) (remainder : Str) : Str :=
  bng.Transformations.foldl (fun r fn => fn r) remainder

/-- A template with every term placeholder replaced by `remainder`, then
every language placeholder by the language tag. -/
def fill (tmpl remainder : Str) (l : Tag) : Str :=
  strings.ReplaceAll (strings.ReplaceAll tmpl termPlaceholder remainder) langPlaceholder l.String

/-- The template of `bng` for `region`: the entry of the lowercased region
when the bang has one, the `default` entry otherwise. -/
def selected (T : UnicodeTables) (bng : Bang) (region : Region) : Option Str :=
  match mapLookup (strings.ToLower T region.String) bng.Regions with
  | some u => some u
  | none => mapLookup defKey bng.Regions

instance (bng : Bang) : Decidable (hasDefault bng) := by
  unfold hasDefault; infer_instance

instance (T : UnicodeTables) (bangs : List Bang) (field : Str) :
    Decidable (fires T bangs field) := by
  unfold fires; infer_instance

/-- The first code point title-cased, the rest unchanged. -/
def capitalizeFirst (T : UnicodeTables) : Str → Str
  | [] => []
  | r :: rs => unicode.ToTitle T r :: rs

/-- The Wikipedia canonical form in the words of the specification: the
whitespace-separated words of `r`, each lowercased and then with its first
code point capitalized, joined by underscores. -/
def specCanonical (T : UnicodeTables) (r : Str) : Str :=
  strings.Join ((strings.Fields r).map (fun w => capitalizeFirst T (strings.ToLower T w)))
    "_".toList

/-- Go `strings.Contains`. -/
def strings.Contains : Str → Str → Bool
  | [], substr => decide (substr = [])
  | r :: rs, substr =>
    decide ((r :: rs).take substr.length = substr) || strings.Contains rs substr

/-- A template read as a sequence of plain code points and placeholders. -/
inductive Piece where
  | chr (r : Char)
  | term
  | lang
deriving DecidableEq

/-- The text a piece stands for in a template. -/
def Piece.source : Piece → Str
  | Piece.chr r => [r]
  | Piece.term => termPlaceholder
  | Piece.lang => langPlaceholder

/-- The text a piece becomes once the template is filled in. -/
def Piece.render (remainder lang : Str) : Piece → Str
  | Piece.chr r => [r]
  | Piece.term => remainder
  | Piece.lang => lang

/-- The pieces of a template, read from the left; `skip` counts the code
points of a placeholder still to be passed over. -/
def pieces : Nat → Str → List Piece
  | _, [] => []
  | skip + 1, _ :: rs => pieces skip rs
  | 0, r :: rs =>
    if (r :: rs).take termPlaceholder.length = termPlaceholder then
      Piece.term :: pieces (termPlaceholder.length - 1) rs
    else if (r :: rs).take langPlaceholder.length = langPlaceholder then
      Piece.lang :: pieces (langPlaceholder.length - 1) rs
    else Piece.chr r :: pieces 0 rs

/-- The template is its pieces put back together, and none of its plain code
points is an opening brace. -/
def wellFormedTemplate (tmpl : Str) : Prop :=
  (pieces 0 tmpl).flatMap Piece.source = tmpl
    ∧ ∀ p ∈ pieces 0 tmpl, p ≠ Piece.chr '\x7b'

instance (tmpl : Str) : Decidable (wellFormedTemplate tmpl) := by
  unfold wellFormedTemplate; infer_instance

/-! ## Concrete inputs -/

/-- The default registry with ASCII-only tables, for evaluation. -/
def newAscii : Bangs := New asciiTables

/-- A registry of two bangs that share the trigger `x`; the first has an
empty `Regions` map. -/
def twoOwners : Bangs :=
  { Suggester := none
    Bangs := [
      { Name := "A".toList, Triggers := ["x".toList], Regions := [], Transformations := [] },
      { Name := "B".toList, Triggers := ["x".toList],
        Regions := [(defKey, "u:\x7b\x7b\x7bterm\x7d\x7d\x7d".toList)],
        Transformations := [] }] }

/-- A registry of two bangs that share the trigger `x` and both have a
`default` region. -/
def collidingOwners (sg : Option Suggester) : Bangs :=
  { Suggester := sg
    Bangs := [
      { Name := "A".toList, Triggers := ["x".toList],
        Regions := [(defKey, "a:\x7b\x7b\x7bterm\x7d\x7d\x7d".toList)],
        Transformations := [] },
      { Name := "B".toList, Triggers := ["x".toList],
        Regions := [(defKey, "b:\x7b\x7b\x7bterm\x7d\x7d\x7d".toList)],
        Transformations := [] }] }

/-- A backend that answers every request with the one suggestion `x`, its
name not filled in. -/
def oneSuggestion : Suggester :=
  { suggest := fun _ _ => ({ Suggestions := [{ Trigger := "x".toList, Name := [] }] }, none) }

/-- The first code point uppercased and the rest lowercased. -/
def capitalizeWord (T : UnicodeTables) : Str → Str
  | [] => []
  | r :: rs => unicode.ToUpper T r :: strings.ToLower T rs

/-- The text without its leading `$`, if it has one. -/
def stripLeadingDollar : Str → Str
  | '$' :: rs => rs
  | s => s

/-- A backend that answers every request with the suggestions `x` and `y`
and no error. -/
def twoSuggestions : Suggester :=
  { suggest := fun _ _ =>
      ({ Suggestions := [{ Trigger := "x".toList, Name := "old".toList },
          { Trigger := "y".toList, Name := "kept".toList }] }, none) }

/-- A fetcher that knows `BRK.A` only; quotes are numbers here. -/
def oneQuote : Fetcher Nat :=
  { Fetch := fun ticker =>
      if ticker = "BRK.A".toList then (some 7, none) else (none, some "unknown ticker".toList) }

/-- An answerer in the state the pipeline leaves it in before `solve`. -/
def stockAnswerer (remainder : Str) : StockQuote Nat :=
  { Fetcher := some oneQuote
    Answer :=
      { language := ⟨"en".toList⟩
        regex := setRegex
        remainder := remainder
        Typ := "stock quote".toList
        Triggered := true
        Solution := none
        Err := none
        Cache := true } }

/-! # Theorems -/

/-! ## Lemmas on the loops of `Detect` -/

theorem trigger_iff (k : Str) (ts : List Str) : trigger k ts = true ↔ k ∈ ts := by
  induction ts with
  | nil => simp [trigger]
  | cons t rest ih =>
    by_cases h : k = t
    · simp [trigger, h]
    · simp [trigger, h, ih]

theorem trigger_false_iff (k : Str) (ts : List Str) : trigger k ts = false ↔ k ∉ ts := by
  rw [← trigger_iff]; cases trigger k ts <;> simp

theorem slice_front (s : List Str) (i : Nat) (h : i ≤ s.length) :
    slice s 0 i = some (s.take i) := by
  simp [slice, h]

theorem slice_back (s : List Str) (i : Nat) (h : i + 1 ≤ s.length) :
    slice s (i + 1) s.length = some (s.drop (i + 1)) := by
  simp [slice, h]

theorem detectRegions_selected (T : UnicodeTables) (bng : Bang) (remainder : Str)
    (region : Region) (l : Tag) :
    detectRegions bng remainder l [strings.ToLower T region.String, defKey]
      = (selected T bng region).map (fun tmpl => fill tmpl remainder l) := by
  unfold selected
  cases h1 : mapLookup (strings.ToLower T region.String) bng.Regions with
  | some u => simp [detectRegions, h1, fill]
  | none =>
    cases h2 : mapLookup defKey bng.Regions with
    | some u => simp [detectRegions, h1, h2, fill]
    | none => simp [detectRegions, h1, h2]

theorem selected_isSome_of_default (T : UnicodeTables) (bng : Bang) (region : Region)
    (h : hasDefault bng) : ∃ tmpl, selected T bng region = some tmpl := by
  unfold selected
  cases h1 : mapLookup (strings.ToLower T region.String) bng.Regions with
  | some u => exact ⟨u, rfl⟩
  | none =>
    unfold hasDefault at h
    cases h2 : mapLookup defKey bng.Regions with
    | some u => exact ⟨u, rfl⟩
    | none => simp [h2] at h

/-- No bang owns the key: the loop over the bangs returns nothing and leaves
the array as it was. -/
theorem detectBangs_none (T : UnicodeTables) (k : Str) (i : Nat) (region : Region) (l : Tag)
    (bangs : List Bang) (fields : List Str) (h : ∀ bng ∈ bangs, k ∉ bng.Triggers) :
    detectBangs T k i region l bangs fields = some (none, fields) := by
  induction bangs with
  | nil => rfl
  | cons bng rest ih =>
    have h1 : trigger k bng.Triggers = false :=
      (trigger_false_iff _ _).2 (h bng (List.mem_cons_self _ _))
    simp only [detectBangs, h1, if_true]
    exact ih (fun x hx => h x (List.mem_cons_of_mem _ hx))

/-- The first bang owning the key, when it has a template for the region,
returns that template filled with the other tokens. -/
theorem detectBangs_first (T : UnicodeTables) (k : Str) (region : Region) (l : Tag)
    (bs1 bs2 : List Bang) (bng : Bang) (pre post : List Str) (field tmpl : Str)
    (h1 : ∀ x ∈ bs1, k ∉ x.Triggers) (h2 : k ∈ bng.Triggers)
    (h3 : selected T bng region = some tmpl) :
    ∃ fields', detectBangs T k pre.length region l (bs1 ++ bng :: bs2) (pre ++ field :: post)
      = some (some (fill tmpl (transform bng (strings.Join (pre ++ post) " ".toList)) l),
          fields') := by
  induction bs1 with
  | nil =>
    have ht : trigger k bng.Triggers = true := (trigger_iff _ _).2 h2
    have hs1 : slice (pre ++ field :: post) 0 pre.length = some pre := by
      rw [slice_front _ _ (by simp)]; simp
    have hs2 : slice (pre ++ field :: post) (pre.length + 1) (pre ++ field :: post).length
        = some post := by
      rw [slice_back _ _ (by simp)]
      simp [List.drop_append_eq_append_drop]
    simp only [List.nil_append, detectBangs, ht, hs1, hs2, detectRegions_selected, h3]
    simp [transform]
  | cons x rest ih =>
    have hx : trigger k x.Triggers = false :=
      (trigger_false_iff _ _).2 (h1 x (List.mem_cons_self _ _))
    simp only [List.cons_append, detectBangs, hx, if_true]
    exact ih (fun y hy => h1 y (List.mem_cons_of_mem _ hy))

/-- Tokens that do not fire are passed over and leave the array untouched. -/
theorem detectFields_skip (T : UnicodeTables) (bangs : List Bang) (region : Region) (l : Tag)
    (js rest : List Nat) (fields : List Str)
    (h : ∀ j ∈ js, ¬ fires T bangs (fields.getD j [])) :
    detectFields T bangs region l (js ++ rest) fields
      = detectFields T bangs region l rest fields := by
  induction js with
  | nil => rfl
  | cons j js ih =>
    have ih1 := ih (fun x hx => h x (List.mem_cons_of_mem _ hx))
    have hj := h j (List.mem_cons_self _ _)
    simp only [List.cons_append, detectFields]
    split
    · exact ih1
    · rename_i hc
      have hno : ∀ bng ∈ bangs,
          strings.ToLower T (strings.Trim (fields.getD j []) "!".toList) ∉ bng.Triggers := by
        intro bng hb hmem
        apply hj
        refine ⟨?_, ?_, bng, hb, hmem⟩
        · intro he; exact hc (Or.inl he)
        · by_contra hn
          apply hc
          right
          constructor
          · cases hp : strings.HasPrefix (fields.getD j []) "!".toList
            · rfl
            · exact absurd (Or.inl hp) hn
          · cases hp : strings.HasSuffix (fields.getD j []) "!".toList
            · rfl
            · exact absurd (Or.inr hp) hn
      rw [detectBangs_none T _ j region l bangs fields hno]
      exact ih1

theorem getD_append_cons (pre post : List Str) (field : Str) :
    (pre ++ field :: post).getD pre.length [] = field := by
  induction pre with
  | nil => rfl
  | cons a pre ih => simpa using ih

theorem getD_mem_of_lt (pre rest : List Str) (j : Nat) (h : j < pre.length) :
    (pre ++ rest).getD j [] ∈ pre := by
  induction pre generalizing j with
  | nil => simp at h
  | cons a pre ih =>
    cases j with
    | zero => simp
    | succ j =>
      have := ih j (by simpa using h)
      simp only [List.cons_append, List.getD_cons_succ]
      exact List.mem_cons_of_mem _ this

/-- The token at index `pre.length` fires the first bang owning its key. -/
theorem detectFields_fire (T : UnicodeTables) (region : Region) (l : Tag)
    (bs1 bs2 : List Bang) (bng : Bang) (pre post : List Str) (field tmpl : Str) (is : List Nat)
    (hne : field ≠ "!".toList)
    (hbang : strings.HasPrefix field "!".toList = true ∨ strings.HasSuffix field "!".toList = true)
    (h1 : ∀ x ∈ bs1, strings.ToLower T (strings.Trim field "!".toList) ∉ x.Triggers)
    (h2 : strings.ToLower T (strings.Trim field "!".toList) ∈ bng.Triggers)
    (h3 : selected T bng region = some tmpl) :
    detectFields T (bs1 ++ bng :: bs2) region l (pre.length :: is) (pre ++ field :: post)
      = some (fill tmpl (transform bng (strings.Join (pre ++ post) " ".toList)) l, true) := by
  obtain ⟨fields', hd⟩ := detectBangs_first T _ region l bs1 bs2 bng pre post field tmpl h1 h2 h3
  simp only [detectFields, getD_append_cons]
  split
  · rename_i hc
    rcases hc with hc | ⟨hp, hs⟩
    · exact absurd hc hne
    · rcases hbang with hb | hb
      · rw [hp] at hb; cases hb
      · rw [hs] at hb; cases hb
  · rw [hd]

theorem range_split (a b : Nat) :
    List.range (a + (b + 1)) = List.range a ++ a :: (List.range b).map (fun x => a + (x + 1)) := by
  rw [List.range_add, List.range_succ_eq_map]
  simp [Function.comp_def]

/-- `Detect` on a query whose leftmost firing token is `field`, for the first
bang `bng` owning its key, when `bng` has a template for the region. -/
theorem Detect_first (T : UnicodeTables) (b : Bangs) (q : Str) (region : Region) (l : Tag)
    (bs1 bs2 : List Bang) (bng : Bang) (pre post : List Str) (field tmpl : Str)
    (hq : strings.Fields q = pre ++ field :: post)
    (hpre : ∀ f ∈ pre, ¬ fires T b.Bangs f)
    (hne : field ≠ "!".toList)
    (hbang : strings.HasPrefix field "!".toList = true ∨ strings.HasSuffix field "!".toList = true)
    (hb : b.Bangs = bs1 ++ bng :: bs2)
    (h1 : ∀ x ∈ bs1, strings.ToLower T (strings.Trim field "!".toList) ∉ x.Triggers)
    (h2 : strings.ToLower T (strings.Trim field "!".toList) ∈ bng.Triggers)
    (h3 : selected T bng region = some tmpl) :
    Detect T b q region l
      = some (fill tmpl (transform bng (strings.Join (pre ++ post) " ".toList)) l, true) := by
  unfold Detect
  simp only [hq]
  have hlen : (pre ++ field :: post).length = pre.length + (post.length + 1) := by simp
  rw [hlen, range_split, detectFields_skip]
  · rw [hb]
    exact detectFields_fire T region l bs1 bs2 bng pre post field tmpl _ hne hbang h1 h2 h3
  · intro j hj
    rw [List.mem_range] at hj
    exact hpre _ (getD_mem_of_lt pre _ j hj)

/-- No token fires: `Detect` reports no match. -/
theorem Detect_no_fire (T : UnicodeTables) (b : Bangs) (q : Str) (region : Region) (l : Tag)
    (h : ∀ f ∈ strings.Fields q, ¬ fires T b.Bangs f) :
    Detect T b q region l = some ([], false) := by
  unfold Detect
  have := detectFields_skip T b.Bangs region l (List.range (strings.Fields q).length) []
    (strings.Fields q) (by
      intro j hj
      rw [List.mem_range] at hj
      have := getD_mem_of_lt (strings.Fields q) [] j hj
      rw [List.append_nil] at this
      exact h _ this)
  rw [List.append_nil] at this
  simpa [detectFields] using this

/-- A list with an element satisfying `p` splits at the leftmost such element. -/
theorem exists_leftmost {α : Type} (p : α → Prop) (xs : List α) (h : ∃ x ∈ xs, p x) :
    ∃ pre x post, xs = pre ++ x :: post ∧ p x ∧ ∀ y ∈ pre, ¬ p y := by
  classical
  induction xs with
  | nil => simp at h
  | cons a xs ih =>
    by_cases ha : p a
    · exact ⟨[], a, xs, rfl, ha, by simp⟩
    · obtain ⟨x, hx, hpx⟩ := h
      have hx2 : x ∈ xs := by
        rcases List.mem_cons.1 hx with rfl | hx
        · exact absurd hpx ha
        · exact hx
      obtain ⟨pre, y, post, he, hy, hpre⟩ := ih ⟨x, hx2, hpx⟩
      refine ⟨a :: pre, y, post, by simp [he], hy, ?_⟩
      intro z hz
      rcases List.mem_cons.1 hz with rfl | hz
      · exact ha
      · exact hpre z hz

theorem mapLookup_mem (key : Str) (m : List (Str × Str)) (v : Str)
    (h : mapLookup key m = some v) : (key, v) ∈ m := by
  induction m with
  | nil => simp [mapLookup] at h
  | cons kv rest ih =>
    obtain ⟨k, w⟩ := kv
    by_cases hk : k = key
    · simp [mapLookup, hk] at h
      simp [hk, h]
    · simp [mapLookup, hk] at h
      exact List.mem_cons_of_mem _ (ih h)

theorem selected_mem (T : UnicodeTables) (bng : Bang) (region : Region) (tmpl : Str)
    (h : selected T bng region = some tmpl) : ∃ kt ∈ bng.Regions, kt.2 = tmpl := by
  unfold selected at h
  split at h
  · rename_i v hv
    simp only [Option.some.injEq] at h
    exact ⟨(_, v), mapLookup_mem _ _ _ hv, h⟩
  · exact ⟨(_, tmpl), mapLookup_mem _ _ _ h, rfl⟩

/-- Whatever the registry, a URL returned by the loop over the bangs is a
template of one of them filled with tokens taken from the array, and the
array keeps holding tokens of the query only. -/
theorem detectBangs_tokens (T : UnicodeTables) (k : Str) (i : Nat) (region : Region) (l : Tag)
    (F : List Str) (bangs : List Bang) (fields : List Str) (r : Option Str) (out : List Str)
    (hsub : ∀ t ∈ fields, t ∈ F)
    (h : detectBangs T k i region l bangs fields = some (r, out)) :
    (∀ t ∈ out, t ∈ F)
      ∧ ∀ u, r = some u → ∃ bng ∈ bangs, ∃ kept : List Str, (∀ t ∈ kept, t ∈ F)
          ∧ ∃ tmpl, selected T bng region = some tmpl
            ∧ u = fill tmpl (transform bng (strings.Join kept " ".toList)) l := by
  induction bangs generalizing fields with
  | nil =>
    simp only [detectBangs, Option.some.injEq, Prod.mk.injEq] at h
    obtain ⟨rfl, rfl⟩ := h
    exact ⟨hsub, by simp⟩
  | cons bng rest ih =>
    by_cases ht : trigger k bng.Triggers = false
    · simp only [detectBangs, ht, if_true] at h
      obtain ⟨h1, h2⟩ := ih fields hsub h
      refine ⟨h1, fun u hu => ?_⟩
      obtain ⟨x, hx, rest2⟩ := h2 u hu
      exact ⟨x, List.mem_cons_of_mem _ hx, rest2⟩
    · simp only [detectBangs, ht, if_false] at h
      cases hs1 : slice fields 0 i with
      | none => simp [hs1] at h
      | some a =>
        cases hs2 : slice fields (i + 1) fields.length with
        | none => simp [hs1, hs2] at h
        | some c =>
          have ha : ∀ t ∈ a, t ∈ F := by
            intro t hta
            unfold slice at hs1
            split at hs1
            · simp only [Option.some.injEq] at hs1
              subst hs1
              exact hsub t (List.mem_of_mem_take (List.mem_of_mem_drop hta))
            · cases hs1
          have hc : ∀ t ∈ c, t ∈ F := by
            intro t htc
            unfold slice at hs2
            split at hs2
            · simp only [Option.some.injEq] at hs2
              subst hs2
              exact hsub t (List.mem_of_mem_take (List.mem_of_mem_drop htc))
            · cases hs2
          have hkept : ∀ t ∈ a ++ c, t ∈ F := by
            intro t htm
            rcases List.mem_append.1 htm with h1 | h1
            · exact ha t h1
            · exact hc t h1
          have hnew : ∀ t ∈ a ++ c ++ List.drop (a ++ c).length fields, t ∈ F := by
            intro t htm
            rcases List.mem_append.1 htm with h1 | h1
            · exact hkept t h1
            · exact hsub t (List.mem_of_mem_drop h1)
          simp only [hs1, hs2] at h
          cases hreg : detectRegions bng
              (List.foldl (fun r fn => fn r) (strings.Join (a ++ c) " ".toList)
                bng.Transformations) l [strings.ToLower T region.String, defKey] with
          | some u =>
            simp only [hreg, Option.some.injEq, Prod.mk.injEq] at h
            obtain ⟨rfl, rfl⟩ := h
            refine ⟨hnew, fun v hv => ?_⟩
            simp only [Option.some.injEq] at hv
            subst hv
            rw [detectRegions_selected] at hreg
            cases hsel : selected T bng region with
            | none => simp [hsel] at hreg
            | some tmpl =>
              simp only [hsel, Option.map_some', Option.some.injEq] at hreg
              exact ⟨bng, List.mem_cons_self _ _, a ++ c, hkept, tmpl, hsel, hreg.symm⟩
          | none =>
            simp only [hreg] at h
            obtain ⟨h1, h2⟩ := ih _ hnew h
            refine ⟨h1, fun v hv => ?_⟩
            obtain ⟨x, hx, rest2⟩ := h2 v hv
            exact ⟨x, List.mem_cons_of_mem _ hx, rest2⟩

theorem detectFields_tokens (T : UnicodeTables) (bangs : List Bang) (region : Region) (l : Tag)
    (F : List Str) (is : List Nat) (fields : List Str) (u : Str)
    (hsub : ∀ t ∈ fields, t ∈ F)
    (h : detectFields T bangs region l is fields = some (u, true)) :
    ∃ bng ∈ bangs, ∃ kept : List Str, (∀ t ∈ kept, t ∈ F)
      ∧ ∃ tmpl, selected T bng region = some tmpl
        ∧ u = fill tmpl (transform bng (strings.Join kept " ".toList)) l := by
  induction is generalizing fields with
  | nil => simp [detectFields] at h
  | cons i is ih =>
    simp only [detectFields] at h
    split at h
    · exact ih fields hsub h
    · split at h
      · cases h
      · rename_i v out hd
        simp only [Option.some.injEq, Prod.mk.injEq, and_true] at h
        subst h
        exact (detectBangs_tokens T _ i region l F bangs fields _ _ hsub hd).2 v rfl
      · rename_i out hd
        exact ih out (detectBangs_tokens T _ i region l F bangs fields _ _ hsub hd).1 h

/-- Whatever the registry, a URL returned by `Detect` is the selected template
of one of its bangs filled with tokens of the query. -/
theorem Detect_tokens (T : UnicodeTables) (b : Bangs) (q : Str) (region : Region) (l : Tag)
    (u : Str) (h : Detect T b q region l = some (u, true)) :
    ∃ bng ∈ b.Bangs, ∃ kept : List Str, (∀ t ∈ kept, t ∈ strings.Fields q)
      ∧ ∃ tmpl, selected T bng region = some tmpl
        ∧ u = fill tmpl (transform bng (strings.Join kept " ".toList)) l :=
  detectFields_tokens T b.Bangs region l (strings.Fields q) _ (strings.Fields q) u
    (fun _ ht => ht) h

/-! ## Detection -/

/-- C1: in a registry whose bangs all have a `default` region, `Detect` finds
a bang exactly when some whitespace-separated token of the query is not `!`,
starts or ends with `!`, and has as key (lowercase, `!` removed at both ends)
a trigger of some bang; otherwise it returns the empty string and `false`,
as it does on the empty query and on `just a ! standalone`. -/
theorem Detect_found_iff (T : UnicodeTables) (b : Bangs) (q : Str) (region : Region) (l : Tag)
    (hwf : ∀ bng ∈ b.Bangs, hasDefault bng) :
    ((∃ u, Detect T b q region l = some (u, true))
        ↔ ∃ field ∈ strings.Fields q, fires T b.Bangs field)
      ∧ ((¬ ∃ field ∈ strings.Fields q, fires T b.Bangs field)
        → Detect T b q region l = some ([], false))
      ∧ Detect T b [] region l = some ([], false)
      ∧ Detect T b "just a ! standalone".toList region l = some ([], false) := by
  have hno : (¬ ∃ field ∈ strings.Fields q, fires T b.Bangs field)
      → Detect T b q region l = some ([], false) := by
    intro h
    apply Detect_no_fire
    intro f hf hfire
    exact h ⟨f, hf, hfire⟩
  refine ⟨⟨?_, ?_⟩, hno, ?_, ?_⟩
  · rintro ⟨u, hu⟩
    by_contra hc
    rw [hno hc] at hu
    simp at hu
  · intro h
    obtain ⟨pre, field, post, hq, hfire, hpre⟩ := exists_leftmost (fires T b.Bangs) _ h
    obtain ⟨hne, hbang, hown⟩ := hfire
    obtain ⟨bs1, bng, bs2, hb, h2, h1⟩ := exists_leftmost
      (fun x : Bang => strings.ToLower T (strings.Trim field "!".toList) ∈ x.Triggers) _ hown
    have hmem : bng ∈ b.Bangs := by rw [hb]; simp
    obtain ⟨tmpl, h3⟩ := selected_isSome_of_default T bng region (hwf bng hmem)
    exact ⟨_, Detect_first T b q region l bs1 bs2 bng pre post field tmpl hq hpre hne hbang hb
      h1 h2 h3⟩
  · apply Detect_no_fire
    intro f hf
    simp [strings.Fields, strings.fieldsAux] at hf
  · apply Detect_no_fire
    intro f hf
    have hF : strings.Fields "just a ! standalone".toList
        = ["just".toList, "a".toList, "!".toList, "standalone".toList] := by decide
    rw [hF] at hf
    simp only [List.mem_cons, List.mem_singleton, List.not_mem_nil, or_false] at hf
    rcases hf with rfl | rfl | rfl | rfl <;>
    · rintro ⟨h1, h2, -⟩
      revert h1 h2
      decide

/-- Witness of C1: the default registry and the query `!g hello world`. -/
theorem Detect_found_iff_witness :
    (∀ bng ∈ newAscii.Bangs, hasDefault bng)
      ∧ ((∃ u, Detect asciiTables newAscii "!g hello world".toList ⟨"".toList⟩ ⟨"en".toList⟩
            = some (u, true))
          ↔ ∃ field ∈ strings.Fields "!g hello world".toList, fires asciiTables newAscii.Bangs field) :=
  ⟨by decide,
    (Detect_found_iff asciiTables newAscii "!g hello world".toList ⟨"".toList⟩ ⟨"en".toList⟩
      (by decide)).1⟩

/-- C2: on the registry `twoOwners` and the query `!x a b`, `Detect` returns
`u:b b`: the first owner of `x` has no region, the `append` that built its
remainder has shifted the tokens in the array, and the second owner joins
what is left.  No token of the query and owner of its key give that URL from
the tokens other than that token (`!x` with bang `B` gives `u:a b`).  On the
default registry `!g hello world` gives the URL of the specification. -/
theorem Detect_remainder_after_regionless_owner :
    Detect asciiTables twoOwners "!x a b".toList ⟨"".toList⟩ ⟨"en".toList⟩
        = some ("u:b b".toList, true)
      ∧ Detect asciiTables newAscii "!g hello world".toList ⟨"".toList⟩ ⟨"en".toList⟩
        = some ("https://encrypted.google.com/search?hl=en&q=hello world".toList, true)
      ∧ strings.Fields "!x a b".toList = ["!x".toList, "a".toList, "b".toList]
      ∧ (∀ i < 3, ∀ bng ∈ twoOwners.Bangs,
          strings.ToLower asciiTables
              (strings.Trim ((strings.Fields "!x a b".toList).getD i []) "!".toList)
            ∈ bng.Triggers →
          (selected asciiTables bng ⟨"".toList⟩).map (fun tmpl =>
              fill tmpl (transform bng (strings.Join
                ((strings.Fields "!x a b".toList).take i
                  ++ (strings.Fields "!x a b".toList).drop (i + 1)) " ".toList))
                ⟨"en".toList⟩)
            ≠ some "u:b b".toList) := by
  refine ⟨by decide, by decide, by decide, ?_⟩
  decide

/-- C3: when the leftmost firing token of a query fires a bang `bng` that has
a `default` region, the template filled in is the entry of `bng.Regions` for
the lowercased region when there is one and the `default` entry otherwise,
whatever the language tag; and in every registry a URL that `Detect` returns
is, for some bang, the template chosen by that rule, filled in.  In the
default registry `!a beach chair` gives
amazon.fr for region FR, amazon.ca for region CA and amazon.com for DE and
US, for every language. -/
theorem Detect_region_selection (T : UnicodeTables) (b : Bangs) (q : Str) (region : Region)
    (l : Tag) (bs1 bs2 : List Bang) (bng : Bang) (pre post : List Str) (field : Str)
    (hq : strings.Fields q = pre ++ field :: post)
    (hpre : ∀ f ∈ pre, ¬ fires T b.Bangs f)
    (hne : field ≠ "!".toList)
    (hbang : strings.HasPrefix field "!".toList = true ∨ strings.HasSuffix field "!".toList = true)
    (hb : b.Bangs = bs1 ++ bng :: bs2)
    (h1 : ∀ x ∈ bs1, strings.ToLower T (strings.Trim field "!".toList) ∉ x.Triggers)
    (h2 : strings.ToLower T (strings.Trim field "!".toList) ∈ bng.Triggers)
    (hdef : hasDefault bng) :
    (∀ t, mapLookup (strings.ToLower T region.String) bng.Regions = some t →
        Detect T b q region l
          = some (fill t (transform bng (strings.Join (pre ++ post) " ".toList)) l, true))
      ∧ (mapLookup (strings.ToLower T region.String) bng.Regions = none →
        ∃ d, mapLookup defKey bng.Regions = some d
          ∧ Detect T b q region l
            = some (fill d (transform bng (strings.Join (pre ++ post) " ".toList)) l, true))
      ∧ (∀ u, Detect T b q region l = some (u, true) →
        ∃ x ∈ b.Bangs, ∃ tmpl remainder,
          (mapLookup (strings.ToLower T region.String) x.Regions = some tmpl
            ∨ (mapLookup (strings.ToLower T region.String) x.Regions = none
              ∧ mapLookup defKey x.Regions = some tmpl))
          ∧ u = fill tmpl remainder l)
      ∧ (∀ l2 : Tag,
          Detect T (New T) "!a beach chair".toList ⟨"FR".toList⟩ l2
            = some ("https://www.amazon.fr/s/ref=nb_sb_noss?url=search-alias%3Daps&field-keywords=beach chair".toList, true)
          ∧ Detect T (New T) "!a beach chair".toList ⟨"CA".toList⟩ l2
            = some ("https://www.amazon.ca/s/ref=nb_sb_noss?url=search-alias%3Daps&field-keywords=beach chair".toList, true)
          ∧ Detect T (New T) "!a beach chair".toList ⟨"DE".toList⟩ l2
            = some ("https://www.amazon.com/s/ref=nb_sb_noss?url=search-alias%3Daps&field-keywords=beach chair".toList, true)
          ∧ Detect T (New T) "!a beach chair".toList ⟨"US".toList⟩ l2
            = some ("https://www.amazon.com/s/ref=nb_sb_noss?url=search-alias%3Daps&field-keywords=beach chair".toList, true)) := by
  refine ⟨?_, ?_, ?_, ?_⟩
  · intro t ht
    have h3 : selected T bng region = some t := by simp [selected, ht]
    exact Detect_first T b q region l bs1 bs2 bng pre post field t hq hpre hne hbang hb h1 h2 h3
  · intro hn
    obtain ⟨d, hd⟩ := selected_isSome_of_default T bng region hdef
    have hd2 : mapLookup defKey bng.Regions = some d := by simpa [selected, hn] using hd
    exact ⟨d, hd2,
      Detect_first T b q region l bs1 bs2 bng pre post field d hq hpre hne hbang hb h1 h2 hd⟩
  · intro u hu
    obtain ⟨x, hx, kept, -, tmpl, hsel, he⟩ := Detect_tokens T b q region l u hu
    refine ⟨x, hx, tmpl, _, ?_, he⟩
    unfold selected at hsel
    cases hlow : mapLookup (strings.ToLower T region.String) x.Regions with
    | some v =>
      rw [hlow] at hsel
      exact Or.inl hsel
    | none =>
      rw [hlow] at hsel
      exact Or.inr ⟨rfl, hsel⟩
  · intro l2
    exact ⟨rfl, rfl, rfl, rfl⟩

/-- Witness of C3: `!a beach chair` in the default registry, region FR. -/
theorem Detect_region_selection_witness :
    Detect asciiTables newAscii "!a beach chair".toList ⟨"FR".toList⟩ ⟨"fr".toList⟩
      = some (fill "https://www.amazon.fr/s/ref=nb_sb_noss?url=search-alias%3Daps&field-keywords=\x7b\x7b\x7bterm\x7d\x7d\x7d".toList
          (transform (newAscii.Bangs.get ⟨0, by decide⟩)
            (strings.Join ([] ++ ["beach".toList, "chair".toList]) " ".toList)) ⟨"fr".toList⟩, true) :=
  (Detect_region_selection asciiTables newAscii "!a beach chair".toList ⟨"FR".toList⟩
    ⟨"fr".toList⟩ [] newAscii.Bangs.tail (newAscii.Bangs.get ⟨0, by decide⟩) []
    ["beach".toList, "chair".toList] "!a".toList
    (by decide) (by simp) (by decide) (by decide) rfl (by simp) (by decide) (by decide)).1
    _ (by decide)

/-- C5: in a registry whose bangs all have a `default` region, `Detect` fires
on the leftmost token that is not `!`, starts or ends with `!` and has a key
owned by some bang, and it uses the first bang of the registry owning that
key; the URL is that bang's selected template filled with all the other
tokens in their order, later bang tokens included as they were written:
`!g !b foo` gives Google's URL with the term `!b foo`. -/
theorem Detect_first_match_wins (T : UnicodeTables) (b : Bangs) (q : Str) (region : Region)
    (l : Tag) (bs1 bs2 : List Bang) (bng : Bang) (pre post : List Str) (field : Str)
    (hwf : ∀ x ∈ b.Bangs, hasDefault x)
    (hq : strings.Fields q = pre ++ field :: post)
    (hpre : ∀ f ∈ pre, ¬ fires T b.Bangs f)
    (hne : field ≠ "!".toList)
    (hbang : strings.HasPrefix field "!".toList = true ∨ strings.HasSuffix field "!".toList = true)
    (hb : b.Bangs = bs1 ++ bng :: bs2)
    (h1 : ∀ x ∈ bs1, strings.ToLower T (strings.Trim field "!".toList) ∉ x.Triggers)
    (h2 : strings.ToLower T (strings.Trim field "!".toList) ∈ bng.Triggers) :
    (∃ tmpl, selected T bng region = some tmpl
        ∧ Detect T b q region l
          = some (fill tmpl (transform bng (strings.Join (pre ++ post) " ".toList)) l, true))
      ∧ (∀ l2 : Tag, Detect T (New T) "!g !b foo".toList ⟨"".toList⟩ l2
          = some ("https://encrypted.google.com/search?hl=".toList ++ l2.String
              ++ "&q=!b foo".toList, true)) := by
  refine ⟨?_, fun l2 => rfl⟩
  have hmem : bng ∈ b.Bangs := by rw [hb]; simp
  obtain ⟨tmpl, h3⟩ := selected_isSome_of_default T bng region (hwf bng hmem)
  exact ⟨tmpl, h3,
    Detect_first T b q region l bs1 bs2 bng pre post field tmpl hq hpre hne hbang hb h1 h2 h3⟩

/-- Witness of C5: `hello !g !b foo` in the default registry; `hello` does
not fire, `!g` is owned by the fourth bang and by none of the first three. -/
theorem Detect_first_match_wins_witness :
    ∃ tmpl, selected asciiTables (newAscii.Bangs.get ⟨3, by decide⟩) ⟨"".toList⟩ = some tmpl
      ∧ Detect asciiTables newAscii "hello !g !b foo".toList ⟨"".toList⟩ ⟨"en".toList⟩
        = some (fill tmpl (transform (newAscii.Bangs.get ⟨3, by decide⟩)
            (strings.Join (["hello".toList] ++ ["!b".toList, "foo".toList]) " ".toList))
            ⟨"en".toList⟩, true) :=
  (Detect_first_match_wins asciiTables newAscii "hello !g !b foo".toList ⟨"".toList⟩
    ⟨"en".toList⟩ (newAscii.Bangs.take 3) (newAscii.Bangs.drop 4)
    (newAscii.Bangs.get ⟨3, by decide⟩) ["hello".toList] ["!b".toList, "foo".toList] "!g".toList
    (by decide) (by decide) (by decide) (by decide) (by decide) rfl (by decide) (by decide)).1

/-! ## Suggestions -/

/-- C6: on the registry `collidingOwners`, whose bangs `A` and `B` both own the
trigger `x`, `Suggest` names the suggestion `x` after `B`, the last owner,
while `Detect` fires `A`, the first owner, on `!x foo`. -/
theorem Suggest_names_last_owner :
    Suggest (collidingOwners (some oneSuggestion)) "x".toList 10
        = some ({ Suggestions := [{ Trigger := "x".toList, Name := "B".toList }] }, none)
      ∧ Detect asciiTables (collidingOwners (some oneSuggestion)) "!x foo".toList ⟨"".toList⟩
          ⟨"en".toList⟩
        = some ("a:foo".toList, true) := by
  constructor <;> decide

/-! ## Tokens with the same key -/

/-- The last token of the array: the loop over the bangs never changes the
array, and its result does not depend on that token. -/
theorem detectBangs_last (T : UnicodeTables) (k : Str) (region : Region) (l : Tag)
    (bangs : List Bang) (pre : List Str) (x y : Str) :
    ∃ r, detectBangs T k pre.length region l bangs (pre ++ [x]) = some (r, pre ++ [x])
      ∧ detectBangs T k pre.length region l bangs (pre ++ [y]) = some (r, pre ++ [y]) := by
  induction bangs with
  | nil => exact ⟨none, rfl, rfl⟩
  | cons bng rest ih =>
    obtain ⟨r, hx, hy⟩ := ih
    have hs1 : ∀ z : Str, slice (pre ++ [z]) 0 pre.length = some pre := by
      intro z; rw [slice_front _ _ (by simp)]; simp
    have hs2 : ∀ z : Str, slice (pre ++ [z]) (pre.length + 1) (pre ++ [z]).length = some [] := by
      intro z; rw [slice_back _ _ (by simp)]; simp
    by_cases ht : trigger k bng.Triggers = false
    · exact ⟨r, by simp only [detectBangs, ht, if_true]; exact hx,
        by simp only [detectBangs, ht, if_true]; exact hy⟩
    · simp only [detectBangs, ht, if_false, hs1, hs2, List.append_nil, List.drop_left]
      cases hreg : detectRegions bng
          (List.foldl (fun r fn => fn r) (strings.Join pre " ".toList) bng.Transformations) l
          [strings.ToLower T region.String, defKey] with
      | some u => exact ⟨some u, rfl, rfl⟩
      | none => exact ⟨r, hx, hy⟩

/-- A token that is not the last one and whose key some bang owns: the loop
over the bangs behaves the same whatever the token is. -/
theorem detectBangs_inner (T : UnicodeTables) (k : Str) (region : Region) (l : Tag)
    (bangs : List Bang) (pre ps : List Str) (x y p : Str)
    (hown : ∃ bng ∈ bangs, k ∈ bng.Triggers) :
    detectBangs T k pre.length region l bangs (pre ++ x :: p :: ps)
      = detectBangs T k pre.length region l bangs (pre ++ y :: p :: ps) := by
  induction bangs with
  | nil => simp at hown
  | cons bng rest ih =>
    have hs1 : ∀ z : Str, slice (pre ++ z :: p :: ps) 0 pre.length = some pre := by
      intro z; rw [slice_front _ _ (by simp)]; simp
    have hs2 : ∀ z : Str,
        slice (pre ++ z :: p :: ps) (pre.length + 1) (pre ++ z :: p :: ps).length
          = some (p :: ps) := by
      intro z; rw [slice_back _ _ (by simp)]
      simp [List.drop_append_eq_append_drop]
    have hd : ∀ z : Str, List.drop (pre ++ p :: ps).length (pre ++ z :: p :: ps)
        = List.drop ps.length (p :: ps) := by
      intro z
      simp [List.drop_append_eq_append_drop]
    by_cases ht : trigger k bng.Triggers = false
    · simp only [detectBangs, ht, if_true]
      apply ih
      obtain ⟨z, hz, hk⟩ := hown
      rcases List.mem_cons.1 hz with rfl | hz
      · exact absurd hk ((trigger_false_iff _ _).1 ht)
      · exact ⟨z, hz, hk⟩
    · simp only [detectBangs, ht, if_false, hs1, hs2, hd]
      rfl

/-- C9: two tokens that are not `!`, start or end with `!` and have the same
key can replace each other at the position of the leftmost firing token
(no earlier token fires, and some bang owns the key) without changing the
result of `Detect`, in every registry; `!w`, `!!w`, `!W`, `!w!` and `w!` are
such tokens, with key `w`, and `!!w x` fires Wikipedia in the default
registry. -/
theorem Detect_same_key_interchangeable (T : UnicodeTables) (b : Bangs) (q q2 : Str)
    (region : Region) (l : Tag) (pre post : List Str) (t t2 : Str)
    (hq : strings.Fields q = pre ++ t :: post)
    (hq2 : strings.Fields q2 = pre ++ t2 :: post)
    (hne : t ≠ "!".toList)
    (hbang : strings.HasPrefix t "!".toList = true ∨ strings.HasSuffix t "!".toList = true)
    (hne2 : t2 ≠ "!".toList)
    (hbang2 : strings.HasPrefix t2 "!".toList = true ∨ strings.HasSuffix t2 "!".toList = true)
    (hkey : strings.ToLower T (strings.Trim t "!".toList)
      = strings.ToLower T (strings.Trim t2 "!".toList))
    (hpre : ∀ f ∈ pre, ¬ fires T b.Bangs f)
    (hown : ∃ bng ∈ b.Bangs, strings.ToLower T (strings.Trim t "!".toList) ∈ bng.Triggers) :
    Detect T b q region l = Detect T b q2 region l
      ∧ (∀ tok ∈ ["!w".toList, "!!w".toList, "!W".toList, "!w!".toList, "w!".toList],
          tok ≠ "!".toList
            ∧ (strings.HasPrefix tok "!".toList = true ∨ strings.HasSuffix tok "!".toList = true)
            ∧ strings.ToLower T (strings.Trim tok "!".toList) = "w".toList)
      ∧ (∀ l2 : Tag, Detect T (New T) "!!w x".toList ⟨"".toList⟩ l2
          = some ("https://en.wikipedia.org/wiki/X".toList, true)) := by
  refine ⟨?_, ?_, fun l2 => rfl⟩
  swap
  · intro tok htok
    simp only [List.mem_cons, List.mem_singleton, List.not_mem_nil, or_false] at htok
    rcases htok with rfl | rfl | rfl | rfl | rfl <;> exact ⟨by decide, by decide, rfl⟩
  unfold Detect
  simp only [hq, hq2]
  have hlen : ∀ z : Str, (pre ++ z :: post).length = pre.length + (post.length + 1) := by
    intro z; simp
  have hskip : ∀ z : Str, ∀ j ∈ List.range pre.length,
      ¬ fires T b.Bangs ((pre ++ z :: post).getD j []) := by
    intro z j hj
    rw [List.mem_range] at hj
    exact hpre _ (getD_mem_of_lt pre _ j hj)
  have helig : ∀ z : Str, z ≠ "!".toList →
      (strings.HasPrefix z "!".toList = true ∨ strings.HasSuffix z "!".toList = true) →
      ¬ (z = "!".toList ∨ (strings.HasPrefix z "!".toList = false
          ∧ strings.HasSuffix z "!".toList = false)) := by
    intro z h1 h2 hc
    rcases hc with hc | ⟨hp, hs⟩
    · exact h1 hc
    · rcases h2 with h | h
      · rw [hp] at h; cases h
      · rw [hs] at h; cases h
  rw [hlen, hlen, range_split, detectFields_skip _ _ _ _ _ _ _ (hskip t),
    detectFields_skip _ _ _ _ _ _ _ (hskip t2)]
  simp only [detectFields, getD_append_cons, if_neg (helig t hne hbang),
    if_neg (helig t2 hne2 hbang2), ← hkey]
  cases post with
  | nil =>
    obtain ⟨r, h1, h2⟩ := detectBangs_last T (strings.ToLower T (strings.Trim t "!".toList))
      region l b.Bangs pre t t2
    rw [h1, h2]
    cases r <;> simp [detectFields]
  | cons p ps =>
    rw [detectBangs_inner T _ region l b.Bangs pre ps t t2 p hown]

/-- Witness of C9: `!W x` and `w! x` in the default registry. -/
theorem Detect_same_key_interchangeable_witness :
    Detect asciiTables newAscii "!W x".toList ⟨"".toList⟩ ⟨"en".toList⟩
      = Detect asciiTables newAscii "w! x".toList ⟨"".toList⟩ ⟨"en".toList⟩ :=
  (Detect_same_key_interchangeable asciiTables newAscii "!W x".toList "w! x".toList
    ⟨"".toList⟩ ⟨"en".toList⟩ [] ["x".toList] "!W".toList "w!".toList
    (by decide) (by decide) (by decide) (by decide) (by decide) (by decide) (by decide)
    (by simp) (by decide)).1

/-- Counterexample to C9 as stated: `!w` and `!!w` have the same key, yet
after the firing token `!g` they are part of the term, and the two URLs
differ. -/
theorem Detect_same_key_not_interchangeable :
    strings.Fields "!g !w".toList = ["!g".toList] ++ "!w".toList :: []
      ∧ strings.Fields "!g !!w".toList = ["!g".toList] ++ "!!w".toList :: []
      ∧ strings.ToLower asciiTables (strings.Trim "!w".toList "!".toList)
        = strings.ToLower asciiTables (strings.Trim "!!w".toList "!".toList)
      ∧ Detect asciiTables newAscii "!g !w".toList ⟨"".toList⟩ ⟨"en".toList⟩
        = some ("https://encrypted.google.com/search?hl=en&q=!w".toList, true)
      ∧ Detect asciiTables newAscii "!g !!w".toList ⟨"".toList⟩ ⟨"en".toList⟩
        = some ("https://encrypted.google.com/search?hl=en&q=!!w".toList, true) := by
  refine ⟨by decide, by decide, by decide, by decide, by decide⟩

/-! ## Wikipedia canonical form -/

theorem fieldsAux_word (w s cur : Str) (hw : ∀ c ∈ w, unicode.IsSpace c = false) :
    strings.fieldsAux (w ++ s) cur = strings.fieldsAux s (cur ++ w) := by
  induction w generalizing cur with
  | nil => simp
  | cons c w ih =>
    have hc : unicode.IsSpace c = false := hw c (List.mem_cons_self _ _)
    have ih2 := ih (cur ++ [c]) (fun x hx => hw x (List.mem_cons_of_mem _ hx))
    rw [List.cons_append, strings.fieldsAux]
    simp only [hc]
    simpa using ih2

/-- Tokens joined by single spaces are recovered by `strings.Fields`. -/
theorem Fields_Join (toks : List Str)
    (h : ∀ t ∈ toks, t ≠ [] ∧ ∀ c ∈ t, unicode.IsSpace c = false) :
    strings.Fields (strings.Join toks " ".toList) = toks := by
  unfold strings.Fields
  induction toks with
  | nil => rfl
  | cons a tl ih =>
    have ha := h a (List.mem_cons_self _ _)
    cases tl with
    | nil =>
      have := fieldsAux_word a [] [] ha.2
      simp only [List.append_nil, List.nil_append] at this
      simp [strings.Join, this, strings.fieldsAux, ha.1]
    | cons b rest =>
      have ih2 := ih (fun t ht => h t (List.mem_cons_of_mem _ ht))
      have hsp : " ".toList = [(' ' : Char)] := rfl
      have hspace : unicode.IsSpace ' ' = true := by decide
      simp only [strings.Join, hsp, List.append_assoc, List.singleton_append]
      rw [fieldsAux_word a _ [] ha.2]
      simp only [List.nil_append, strings.fieldsAux, hspace, if_true, ha.1, if_false]
      simp only [strings.Join, hsp, List.append_assoc, List.singleton_append] at ih2
      rw [ih2]

theorem map_Join (f : Char → Char) (toks : List Str) (sep : Str) :
    (strings.Join toks sep).map f = strings.Join (toks.map (List.map f)) (sep.map f) := by
  induction toks with
  | nil => rfl
  | cons a tl ih =>
    cases tl with
    | nil => rfl
    | cons b rest =>
      simp only [strings.Join, List.map_append, List.map_cons] at ih ⊢
      rw [ih]

theorem replaceAux_space (s : Str) :
    strings.replaceAux [' '] ['_'] 0 s = s.map (fun c => if c = ' ' then '_' else c) := by
  induction s with
  | nil => rfl
  | cons r rs ih =>
    by_cases hr : r = ' '
    · simp [strings.replaceAux, hr, ih]
    · simp [strings.replaceAux, hr, ih]

theorem titleAux_tail (T : UnicodeTables) (w : Str) (prev : Char)
    (hw : ∀ c ∈ w, strings.isSeparator T c = false) (hp : strings.isSeparator T prev = false) :
    strings.titleAux T prev w = w := by
  induction w generalizing prev with
  | nil => rfl
  | cons c w ih =>
    have hc := hw c (List.mem_cons_self _ _)
    simp [strings.titleAux, hp, ih c (fun x hx => hw x (List.mem_cons_of_mem _ hx)) hc]

theorem titleAux_tail_space (T : UnicodeTables) (w s : Str) (prev : Char)
    (hw : ∀ c ∈ w, strings.isSeparator T c = false) (hp : strings.isSeparator T prev = false) :
    strings.titleAux T prev (w ++ ' ' :: s) = w ++ ' ' :: strings.titleAux T ' ' s := by
  induction w generalizing prev with
  | nil => simp [strings.titleAux, hp]
  | cons c w ih =>
    have hc := hw c (List.mem_cons_self _ _)
    simp [strings.titleAux, hp, ih c (fun x hx => hw x (List.mem_cons_of_mem _ hx)) hc]

/-- `strings.Title` on words without separators, joined by single spaces. -/
theorem titleAux_Join (T : UnicodeTables) (ws : List Str) (prev : Char)
    (hp : strings.isSeparator T prev = true)
    (h : ∀ w ∈ ws, w ≠ [] ∧ ∀ c ∈ w, strings.isSeparator T c = false) :
    strings.titleAux T prev (strings.Join ws " ".toList)
      = strings.Join (ws.map (capitalizeFirst T)) " ".toList := by
  have hsp : " ".toList = [(' ' : Char)] := rfl
  have hsep : strings.isSeparator T ' ' = true := rfl
  have hcap : ∀ (x : Char) (xs : Str),
      capitalizeFirst T (x :: xs) = unicode.ToTitle T x :: xs := fun _ _ => rfl
  induction ws generalizing prev with
  | nil => rfl
  | cons a tl ih =>
    obtain ⟨hne, hch⟩ := h a (List.mem_cons_self _ _)
    cases a with
    | nil => exact absurd rfl hne
    | cons c cs =>
      have hc := hch c (List.mem_cons_self _ _)
      have hcs : ∀ x ∈ cs, strings.isSeparator T x = false :=
        fun x hx => hch x (List.mem_cons_of_mem _ hx)
      cases tl with
      | nil =>
        simp [strings.Join, strings.titleAux, hp, capitalizeFirst, titleAux_tail T cs c hcs hc]
      | cons b rest =>
        have ih2 := ih ' ' hsep (fun w hw => h w (List.mem_cons_of_mem _ hw))
        simp only [strings.Join, hsp, List.append_assoc, List.singleton_append, List.map_cons,
          List.cons_append, List.nil_append, hcap] at ih2 ⊢
        rw [strings.titleAux]
        simp only [hp, if_true]
        rw [titleAux_tail_space T cs _ c hcs hc, ih2]

theorem ToTitle_ne_space (T : UnicodeTables) (d : Char)
    (hT : ∀ c : Char, 0x7F < c.toNat → T.title c ≠ ' ')
    (hd : strings.isSeparator T d = false) : unicode.ToTitle T d ≠ ' ' := by
  unfold unicode.ToTitle
  by_cases h : d.toNat ≤ 0x7F
  · by_cases h2 : 0x61 ≤ d.toNat ∧ d.toNat ≤ 0x7A
    · simp only [h, h2, if_true, and_self]
      obtain ⟨ha, hb⟩ := h2
      generalize d.toNat = n at ha hb
      interval_cases n <;> decide
    · simp only [h, h2, if_true, if_false]
      intro he
      rw [he] at hd
      exact absurd hd (by rw [show strings.isSeparator T ' ' = true from rfl]; simp)
  · simp only [h, if_false]
    exact hT d (by omega)

theorem Join_congr (ws : List Str) (sep : Str) (f : Str → Str) (h : ∀ w ∈ ws, f w = w) :
    strings.Join (ws.map f) sep = strings.Join ws sep := by
  have : ws.map f = ws := by
    conv_rhs => rw [← List.map_id ws]
    exact List.map_congr_left (fun w hw => by simpa using h w hw)
  rw [this]

/-- C10: for tokens joined by single spaces in which no code point, once
lowercased, is a word separator of `strings.Title`, `wikipediaCanonical` is
the words of the remainder, each lowercased and then with its first code
point title-cased, joined by underscores (the tables are assumed not to
title-case a code point above U+007F to a space); `bob maRLey` gives
`Bob_Marley`. -/
theorem wikipediaCanonical_words (T : UnicodeTables) (toks : List Str)
    (hT : ∀ c : Char, 0x7F < c.toNat → T.title c ≠ ' ')
    (htok : ∀ t ∈ toks, t ≠ [] ∧ ∀ c ∈ t,
      unicode.IsSpace c = false ∧ strings.isSeparator T (unicode.ToLower T c) = false) :
    wikipediaCanonical T (strings.Join toks " ".toList)
        = specCanonical T (strings.Join toks " ".toList)
      ∧ specCanonical T (strings.Join toks " ".toList)
        = strings.Join (toks.map (fun w => capitalizeFirst T (strings.ToLower T w))) "_".toList
      ∧ wikipediaCanonical T "bob maRLey".toList = "Bob_Marley".toList := by
  have hsp : " ".toList = [(' ' : Char)] := rfl
  have hus : "_".toList = [('_' : Char)] := rfl
  have hspec : specCanonical T (strings.Join toks " ".toList)
      = strings.Join (toks.map (fun w => capitalizeFirst T (strings.ToLower T w))) "_".toList := by
    unfold specCanonical
    rw [Fields_Join toks (fun t ht => ⟨(htok t ht).1, fun c hc => ((htok t ht).2 c hc).1⟩)]
  refine ⟨?_, hspec, rfl⟩
  rw [hspec]
  unfold wikipediaCanonical strings.Title strings.ToLower
  have hlow : (strings.Join toks " ".toList).map (unicode.ToLower T)
      = strings.Join (toks.map (List.map (unicode.ToLower T))) " ".toList := by
    rw [map_Join]; rfl
  have hwords : ∀ w ∈ toks.map (List.map (unicode.ToLower T)),
      w ≠ [] ∧ ∀ c ∈ w, strings.isSeparator T c = false := by
    intro w hw
    obtain ⟨t, ht, rfl⟩ := List.mem_map.1 hw
    refine ⟨by simpa using (htok t ht).1, ?_⟩
    intro c hc
    obtain ⟨d, hd, rfl⟩ := List.mem_map.1 hc
    exact ((htok t ht).2 d hd).2
  rw [hlow, titleAux_Join T _ ' ' rfl hwords]
  have hrep : ∀ x : Str, strings.ReplaceAll x " ".toList "_".toList
      = x.map (fun c => if c = ' ' then '_' else c) := by
    intro x
    unfold strings.ReplaceAll
    rw [hsp, hus, if_neg (by simp), replaceAux_space]
  rw [hrep, map_Join, List.map_map, List.map_map]
  have hsep2 : List.map (fun c => if c = ' ' then '_' else c) " ".toList = "_".toList := rfl
  rw [hsep2]
  have hcomp : List.map ((List.map (fun c => if c = ' ' then '_' else c) ∘ capitalizeFirst T)
        ∘ List.map (unicode.ToLower T)) toks
      = List.map (fun w => capitalizeFirst T (strings.ToLower T w)) toks := by
    apply List.map_congr_left
    intro t ht
    obtain ⟨hne, hch⟩ := htok t ht
    simp only [Function.comp, strings.ToLower]
    cases t with
    | nil => exact absurd rfl hne
    | cons c cs =>
      have h0 := (hch c (List.mem_cons_self _ _)).2
      have h1 : unicode.ToTitle T (unicode.ToLower T c) ≠ ' ' := ToTitle_ne_space T _ hT h0
      simp only [List.map_cons, capitalizeFirst, h1, if_false, List.cons.injEq, true_and]
      conv_rhs => rw [← List.map_id (List.map (unicode.ToLower T) cs)]
      apply List.map_congr_left
      intro d hd
      obtain ⟨e, he, rfl⟩ := List.mem_map.1 hd
      have h2 := (hch e (List.mem_cons_of_mem _ he)).2
      have h3 : unicode.ToLower T e ≠ ' ' := by
        intro heq
        rw [heq] at h2
        exact absurd h2 (by rw [show strings.isSeparator T ' ' = true from rfl]; simp)
      simp [h3]
  rw [hcomp]
  rfl

/-- Witness of C10: the tokens `bob` and `maRLey`. -/
theorem wikipediaCanonical_words_witness :
    wikipediaCanonical asciiTables (strings.Join ["bob".toList, "maRLey".toList] " ".toList)
      = specCanonical asciiTables (strings.Join ["bob".toList, "maRLey".toList] " ".toList) :=
  (wikipediaCanonical_words asciiTables ["bob".toList, "maRLey".toList]
    (by intro c h hc; rw [show asciiTables.title c = c from rfl] at hc; subst hc; revert h; decide)
    (by decide)).1

/-- Counterexample to C10 as stated: in `rock-n-roll band` the code also
capitalizes the letters after the hyphens, which are not first in a
whitespace-separated word. -/
theorem wikipediaCanonical_not_spec_words :
    strings.Join ["rock-n-roll".toList, "band".toList] " ".toList = "rock-n-roll band".toList
      ∧ wikipediaCanonical asciiTables "rock-n-roll band".toList = "Rock-N-Roll_Band".toList
      ∧ specCanonical asciiTables "rock-n-roll band".toList = "Rock-n-roll_Band".toList := by
  refine ⟨by decide, by decide, by decide⟩

/-! ## Full substitution -/

theorem replaceAux_skip (old new xs rest : Str) :
    strings.replaceAux old new xs.length (xs ++ rest) = strings.replaceAux old new 0 rest := by
  induction xs with
  | nil => rfl
  | cons x xs ih => simpa [strings.replaceAux] using ih

/-- An occurrence of `old` at the head is replaced. -/
theorem replaceAux_match (old new rest : Str) (h : old ≠ []) :
    strings.replaceAux old new 0 (old ++ rest) = new ++ strings.replaceAux old new 0 rest := by
  cases old with
  | nil => exact absurd rfl h
  | cons o os =>
    have ht : ((o :: os) ++ rest).take (o :: os).length = o :: os := List.take_left _ _
    rw [List.cons_append] at ht ⊢
    rw [strings.replaceAux, if_pos ht]
    have := replaceAux_skip (o :: os) new os rest
    simpa using this

/-- Code points other than the first of `old` are copied. -/
theorem replaceAux_copy (o : Char) (os new a rest : Str) (h : ∀ c ∈ a, c ≠ o) :
    strings.replaceAux (o :: os) new 0 (a ++ rest)
      = a ++ strings.replaceAux (o :: os) new 0 rest := by
  induction a with
  | nil => rfl
  | cons c a ih =>
    have hc : c ≠ o := h c (List.mem_cons_self _ _)
    have ih2 := ih (fun x hx => h x (List.mem_cons_of_mem _ hx))
    rw [List.cons_append, strings.replaceAux]
    simp [hc, ih2]

/-- The scan for the term placeholder copies a language placeholder. -/
theorem replaceAux_term_over_lang (new rest : Str) :
    strings.replaceAux termPlaceholder new 0 (langPlaceholder ++ rest)
      = langPlaceholder ++ strings.replaceAux termPlaceholder new 0 rest := by
  have hl : langPlaceholder = ['\x7b', '\x7b', '\x7b', 'l', 'a', 'n', 'g', '\x7d', '\x7d', '\x7d'] := rfl
  have ht : termPlaceholder = ['\x7b', '\x7b', '\x7b', 't', 'e', 'r', 'm', '\x7d', '\x7d', '\x7d'] := rfl
  rw [hl, ht]
  simp [strings.replaceAux]

theorem termPlaceholder_cons :
    termPlaceholder = '\x7b' :: ['\x7b', '\x7b', 't', 'e', 'r', 'm', '\x7d', '\x7d', '\x7d'] := rfl

theorem langPlaceholder_cons :
    langPlaceholder = '\x7b' :: ['\x7b', '\x7b', 'l', 'a', 'n', 'g', '\x7d', '\x7d', '\x7d'] := rfl

/-- Replacing the term placeholder in a template given by its pieces. -/
theorem replace_term_pieces (ps : List Piece) (remainder : Str)
    (hps : ∀ p ∈ ps, p ≠ Piece.chr '\x7b') :
    strings.replaceAux termPlaceholder remainder 0 (ps.flatMap Piece.source)
      = ps.flatMap (Piece.render remainder langPlaceholder) := by
  induction ps with
  | nil => rfl
  | cons p ps ih =>
    have ih2 := ih (fun x hx => hps x (List.mem_cons_of_mem _ hx))
    have hp := hps p (List.mem_cons_self _ _)
    simp only [List.flatMap_cons]
    cases p with
    | chr r =>
      have hr : ∀ c ∈ [r], c ≠ '\x7b' := by
        intro c hc
        rw [List.mem_singleton] at hc
        subst hc
        intro he
        exact hp (by rw [he])
      simp only [Piece.source, Piece.render]
      rw [termPlaceholder_cons, replaceAux_copy _ _ _ _ _ hr, ← termPlaceholder_cons, ih2]
    | term =>
      simp only [Piece.source, Piece.render]
      rw [replaceAux_match _ _ _ (by decide), ih2]
    | lang =>
      simp only [Piece.source, Piece.render]
      rw [replaceAux_term_over_lang, ih2]

/-- Replacing the language placeholder once the term is filled in. -/
theorem replace_lang_pieces (ps : List Piece) (remainder lang : Str)
    (hps : ∀ p ∈ ps, p ≠ Piece.chr '\x7b') (hrem : ∀ c ∈ remainder, c ≠ '\x7b') :
    strings.replaceAux langPlaceholder lang 0 (ps.flatMap (Piece.render remainder langPlaceholder))
      = ps.flatMap (Piece.render remainder lang) := by
  induction ps with
  | nil => rfl
  | cons p ps ih =>
    have ih2 := ih (fun x hx => hps x (List.mem_cons_of_mem _ hx))
    have hp := hps p (List.mem_cons_self _ _)
    simp only [List.flatMap_cons]
    cases p with
    | chr r =>
      have hr : ∀ c ∈ [r], c ≠ '\x7b' := by
        intro c hc
        rw [List.mem_singleton] at hc
        subst hc
        intro he
        exact hp (by rw [he])
      simp only [Piece.render]
      rw [langPlaceholder_cons, replaceAux_copy _ _ _ _ _ hr, ← langPlaceholder_cons, ih2]
    | term =>
      simp only [Piece.render]
      rw [langPlaceholder_cons, replaceAux_copy _ _ _ _ _ hrem, ← langPlaceholder_cons, ih2]
    | lang =>
      simp only [Piece.render]
      rw [replaceAux_match _ _ _ (by decide), ih2]

/-- A well-formed template filled with a remainder and a language that have
no opening brace has no opening brace left. -/
theorem fill_no_brace (tmpl remainder : Str) (l : Tag) (hw : wellFormedTemplate tmpl)
    (hrem : ∀ c ∈ remainder, c ≠ '\x7b') (hl : ∀ c ∈ l.String, c ≠ '\x7b') :
    ∀ c ∈ fill tmpl remainder l, c ≠ '\x7b' := by
  obtain ⟨hsrc, hps⟩ := hw
  have hfill : fill tmpl remainder l
      = (pieces 0 tmpl).flatMap (Piece.render remainder l.String) := by
    unfold fill strings.ReplaceAll
    rw [if_neg (by decide), if_neg (by decide)]
    conv_lhs => rw [← hsrc]
    rw [replace_term_pieces _ _ hps, replace_lang_pieces _ _ _ hps hrem]
  rw [hfill]
  intro c hc
  rw [List.mem_flatMap] at hc
  obtain ⟨p, hp, hcp⟩ := hc
  cases p with
  | chr r =>
    simp only [Piece.render, List.mem_singleton] at hcp
    subst hcp
    intro he
    exact hps _ hp (by rw [he])
  | term => exact hrem c hcp
  | lang => exact hl c hcp

theorem Contains_false_of_not_mem (s : Str) (o : Char) (os : Str) (h : ∀ c ∈ s, c ≠ o) :
    strings.Contains s (o :: os) = false := by
  induction s with
  | nil => simp [strings.Contains]
  | cons r rs ih =>
    have hr : r ≠ o := h r (List.mem_cons_self _ _)
    simp [strings.Contains, hr, ih (fun x hx => h x (List.mem_cons_of_mem _ hx))]

/-- Every template of the default registry is well formed. -/
theorem New_templates (T : UnicodeTables) :
    ∀ bng ∈ (New T).Bangs, ∀ kt ∈ bng.Regions, wellFormedTemplate kt.2 := by
  have h : ∀ regs ∈ (New T).Bangs.map Bang.Regions, ∀ kt ∈ regs, wellFormedTemplate kt.2 := by
    rw [show (New T).Bangs.map Bang.Regions = newAscii.Bangs.map Bang.Regions from rfl]
    decide
  intro bng hb
  exact h _ (List.mem_map_of_mem _ hb)

theorem fieldsAux_chars (s cur t : Str) (ht : t ∈ strings.fieldsAux s cur) :
    ∀ c ∈ t, c ∈ cur ∨ c ∈ s := by
  induction s generalizing cur with
  | nil =>
    by_cases hc : cur = []
    · simp [strings.fieldsAux, hc] at ht
    · simp only [strings.fieldsAux, hc, if_false, List.mem_singleton] at ht
      subst ht
      exact fun c hc => Or.inl hc
  | cons r rs ih =>
    intro c hct
    rw [strings.fieldsAux] at ht
    split at ht
    · split at ht
      · rcases ih [] ht c hct with h | h
        · simp at h
        · exact Or.inr (List.mem_cons_of_mem _ h)
      · rcases List.mem_cons.1 ht with rfl | ht
        · exact Or.inl hct
        · rcases ih [] ht c hct with h | h
          · simp at h
          · exact Or.inr (List.mem_cons_of_mem _ h)
    · rcases ih _ ht c hct with h | h
      · rcases List.mem_append.1 h with h | h
        · exact Or.inl h
        · rw [List.mem_singleton] at h
          exact Or.inr (by rw [h]; exact List.mem_cons_self _ _)
      · exact Or.inr (List.mem_cons_of_mem _ h)

theorem Join_chars (toks : List Str) (sep : Str) :
    ∀ c ∈ strings.Join toks sep, c ∈ sep ∨ ∃ t ∈ toks, c ∈ t := by
  induction toks with
  | nil => simp [strings.Join]
  | cons a tl ih =>
    cases tl with
    | nil =>
      intro c hc
      exact Or.inr ⟨a, List.mem_cons_self _ _, hc⟩
    | cons b rest =>
      intro c hc
      simp only [strings.Join, List.mem_append] at hc ih
      rcases hc with (hc | hc) | hc
      · exact Or.inr ⟨a, List.mem_cons_self _ _, hc⟩
      · exact Or.inl hc
      · rcases ih c hc with h | ⟨t, ht, hct⟩
        · exact Or.inl h
        · exact Or.inr ⟨t, List.mem_cons_of_mem _ ht, hct⟩

theorem ToLower_ne_brace (T : UnicodeTables) (c : Char)
    (hT : ∀ r : Char, 0x7F < r.toNat → T.lower r ≠ '\x7b') (hc : c ≠ '\x7b') :
    unicode.ToLower T c ≠ '\x7b' := by
  unfold unicode.ToLower
  by_cases h : c.toNat ≤ 0x7F
  · by_cases h2 : 0x41 ≤ c.toNat ∧ c.toNat ≤ 0x5A
    · simp only [h, h2, if_true, and_self]
      obtain ⟨ha, hb⟩ := h2
      generalize c.toNat = n at ha hb
      interval_cases n <;> decide
    · simp only [h, h2, if_true, if_false]
      exact hc
  · simp only [h, if_false]
    exact hT c (by omega)

theorem ToTitle_ne_brace (T : UnicodeTables) (c : Char)
    (hT : ∀ r : Char, 0x7F < r.toNat → T.title r ≠ '\x7b') (hc : c ≠ '\x7b') :
    unicode.ToTitle T c ≠ '\x7b' := by
  unfold unicode.ToTitle
  by_cases h : c.toNat ≤ 0x7F
  · by_cases h2 : 0x61 ≤ c.toNat ∧ c.toNat ≤ 0x7A
    · simp only [h, h2, if_true, and_self]
      obtain ⟨ha, hb⟩ := h2
      generalize c.toNat = n at ha hb
      interval_cases n <;> decide
    · simp only [h, h2, if_true, if_false]
      exact hc
  · simp only [h, if_false]
    exact hT c (by omega)

theorem titleAux_ne_brace (T : UnicodeTables) (prev : Char) (s : Str)
    (hT : ∀ r : Char, 0x7F < r.toNat → T.title r ≠ '\x7b') (hs : ∀ c ∈ s, c ≠ '\x7b') :
    ∀ c ∈ strings.titleAux T prev s, c ≠ '\x7b' := by
  induction s generalizing prev with
  | nil => simp [strings.titleAux]
  | cons r rs ih =>
    intro c hc
    have hr := hs r (List.mem_cons_self _ _)
    rw [strings.titleAux] at hc
    rcases List.mem_cons.1 hc with rfl | hc
    · split
      · exact ToTitle_ne_brace T r hT hr
      · exact hr
    · exact ih r (fun x hx => hs x (List.mem_cons_of_mem _ hx)) c hc

theorem ReplaceAll_space (x : Str) :
    strings.ReplaceAll x " ".toList "_".toList = x.map (fun c => if c = ' ' then '_' else c) := by
  unfold strings.ReplaceAll
  rw [show " ".toList = [(' ' : Char)] from rfl, show "_".toList = [('_' : Char)] from rfl,
    if_neg (by simp), replaceAux_space]

theorem wikipediaCanonical_ne_brace (T : UnicodeTables) (q : Str)
    (hT : ∀ r : Char, 0x7F < r.toNat → T.lower r ≠ '\x7b' ∧ T.title r ≠ '\x7b')
    (hq : ∀ c ∈ q, c ≠ '\x7b') : ∀ c ∈ wikipediaCanonical T q, c ≠ '\x7b' := by
  unfold wikipediaCanonical
  rw [ReplaceAll_space]
  intro c hc
  obtain ⟨d, hd, rfl⟩ := List.mem_map.1 hc
  have hlow : ∀ e ∈ strings.ToLower T q, e ≠ '\x7b' := by
    intro e he
    obtain ⟨f, hf, rfl⟩ := List.mem_map.1 he
    exact ToLower_ne_brace T f (fun r hr => (hT r hr).1) (hq f hf)
  have hd2 := titleAux_ne_brace T ' ' _ (fun r hr => (hT r hr).2) hlow d hd
  split
  · decide
  · exact hd2

theorem New_transformations (T : UnicodeTables) :
    ∀ bng ∈ (New T).Bangs,
      bng.Transformations = [] ∨ bng.Transformations = [wikipediaCanonical T] := by
  intro bng hb
  simp only [New, List.mem_cons, List.mem_singleton, List.not_mem_nil, or_false] at hb
  rcases hb with rfl | rfl | rfl | rfl | rfl | rfl | rfl | rfl | rfl | rfl <;> simp

/-- C4: over the default registry, when neither the query nor the language
tag contains an opening brace, a URL returned by `Detect` contains neither
the term placeholder nor the language placeholder (the tables are assumed not
to map a code point above U+007F to an opening brace). -/
theorem Detect_full_substitution (T : UnicodeTables) (q : Str) (region : Region) (l : Tag)
    (u : Str)
    (hT : ∀ r : Char, 0x7F < r.toNat → T.lower r ≠ '\x7b' ∧ T.title r ≠ '\x7b')
    (hq : ∀ c ∈ q, c ≠ '\x7b') (hl : ∀ c ∈ l.String, c ≠ '\x7b')
    (h : Detect T (New T) q region l = some (u, true)) :
    strings.Contains u termPlaceholder = false ∧ strings.Contains u langPlaceholder = false := by
  obtain ⟨bng, hb, kept, hkept, tmpl, hsel, rfl⟩ := Detect_tokens T (New T) q region l u h
  obtain ⟨kt, hkt, rfl⟩ := selected_mem T bng region tmpl hsel
  have hjoin : ∀ c ∈ strings.Join kept " ".toList, c ≠ '\x7b' := by
    intro c hc
    rcases Join_chars kept _ c hc with hsp | ⟨t, ht, hct⟩
    · rw [show " ".toList = [(' ' : Char)] from rfl, List.mem_singleton] at hsp
      rw [hsp]; decide
    · rcases fieldsAux_chars q [] t (hkept t ht) c hct with h0 | h0
      · simp at h0
      · exact hq c h0
  have htr : ∀ c ∈ transform bng (strings.Join kept " ".toList), c ≠ '\x7b' := by
    unfold transform
    rcases New_transformations T bng hb with h0 | h0
    · rw [h0]; exact hjoin
    · rw [h0]; exact wikipediaCanonical_ne_brace T _ hT hjoin
  have hno := fill_no_brace kt.2 _ l (New_templates T bng hb kt hkt) htr hl
  exact ⟨by rw [termPlaceholder_cons]; exact Contains_false_of_not_mem _ _ _ hno,
    by rw [langPlaceholder_cons]; exact Contains_false_of_not_mem _ _ _ hno⟩

/-- Witness of C4: the query `!g hello world` with the language `en`. -/
theorem Detect_full_substitution_witness :
    strings.Contains "https://encrypted.google.com/search?hl=en&q=hello world".toList
        termPlaceholder = false
      ∧ strings.Contains "https://encrypted.google.com/search?hl=en&q=hello world".toList
        langPlaceholder = false :=
  Detect_full_substitution asciiTables "!g hello world".toList ⟨"".toList⟩ ⟨"en".toList⟩
    "https://encrypted.google.com/search?hl=en&q=hello world".toList
    (by
      intro r hr
      have : ∀ x : Char, 0x7F < x.toNat → x ≠ '\x7b' := by
        intro x hx he; subst he; revert hx; decide
      exact ⟨this r hr, this r hr⟩)
    (by decide) (by decide) (by decide)

/-- Counterexample to C4 as stated: a query that itself holds the term
placeholder keeps it in the URL. -/
theorem Detect_placeholder_from_query :
    Detect asciiTables newAscii "!g \x7b\x7b\x7bterm\x7d\x7d\x7d".toList ⟨"".toList⟩ ⟨"en".toList⟩
        = some ("https://encrypted.google.com/search?hl=en&q=\x7b\x7b\x7bterm\x7d\x7d\x7d".toList, true)
      ∧ strings.Contains
          "https://encrypted.google.com/search?hl=en&q=\x7b\x7b\x7bterm\x7d\x7d\x7d".toList
          termPlaceholder = true := by
  constructor <;> decide

/-! ## The patterns of the stock quote answerer -/

namespace regexp

theorem runRep_consumed (f : MState → List MState) (P : Char → Prop)
    (hf : ∀ st st2, st2 ∈ f st →
      ∃ w, st.rest = w ++ st2.rest ∧ st2.pos = st.pos + w.length ∧ ∀ c ∈ w, P c)
    (min max : Nat) (st st2 : MState) (h : st2 ∈ runRep f min max st) :
    ∃ w, st.rest = w ++ st2.rest ∧ st2.pos = st.pos + w.length ∧ ∀ c ∈ w, P c := by
  induction max generalizing min st with
  | zero =>
    simp only [runRep, List.mem_singleton] at h
    subst h
    exact ⟨[], by simp, by simp, by simp⟩
  | succ max ih =>
    have hstep : ∀ m, st2 ∈ (f st).flatMap (runRep f m max) →
        ∃ w, st.rest = w ++ st2.rest ∧ st2.pos = st.pos + w.length ∧ ∀ c ∈ w, P c := by
      intro m hm
      obtain ⟨st1, h1, h2⟩ := List.mem_flatMap.1 hm
      obtain ⟨w1, e1, p1, c1⟩ := hf st st1 h1
      obtain ⟨w2, e2, p2, c2⟩ := ih m st1 h2
      refine ⟨w1 ++ w2, by rw [e1, e2, List.append_assoc], by rw [p2, p1]; simp; omega, ?_⟩
      intro c hc
      rcases List.mem_append.1 hc with hc | hc
      · exact c1 c hc
      · exact c2 c hc
    cases min with
    | zero =>
      simp only [runRep, List.mem_append, List.mem_singleton] at h
      rcases h with h | h
      · exact hstep 0 h
      · subst h
        exact ⟨[], by simp, by simp, by simp⟩
    | succ min =>
      simp only [runRep] at h
      exact hstep min h

/-- A thread of a match has read a stretch of the text made of code points
the tree can consume. -/
theorem run_consumed (re : Re) (st st2 : MState) (h : st2 ∈ run re st) :
    ∃ w, st.rest = w ++ st2.rest ∧ st2.pos = st.pos + w.length
      ∧ ∀ c ∈ w, mayConsume re c = true := by
  induction re generalizing st st2 with
  | lits s =>
    simp only [run] at h
    split at h
    · rename_i ht
      simp only [List.mem_singleton] at h
      subst h
      refine ⟨s, ?_, rfl, by simp [mayConsume]⟩
      conv_lhs => rw [← List.take_append_drop s.length st.rest, ht]
    · simp at h
  | cls items =>
    simp only [run] at h
    split at h
    · simp at h
    · rename_i r rs hr
      split at h
      · rename_i ha
        simp only [List.mem_singleton] at h
        subst h
        refine ⟨[r], by simp [hr], rfl, ?_⟩
        intro c hc
        rw [List.mem_singleton] at hc
        subst hc
        simpa [mayConsume] using ha
      · simp at h
  | perlSpace =>
    simp only [run] at h
    split at h
    · simp at h
    · rename_i r rs hr
      split at h
      · rename_i ha
        simp only [List.mem_singleton] at h
        subst h
        refine ⟨[r], by simp [hr], rfl, ?_⟩
        intro c hc
        rw [List.mem_singleton] at hc
        subst hc
        simpa [mayConsume] using ha
      · simp at h
  | bol =>
    simp only [run] at h
    split at h
    · simp only [List.mem_singleton] at h
      subst h
      exact ⟨[], by simp, by simp, by simp⟩
    · simp at h
  | eol =>
    simp only [run] at h
    split at h
    · simp only [List.mem_singleton] at h
      subst h
      exact ⟨[], by simp, by simp, by simp⟩
    · simp at h
  | cat a b iha ihb =>
    simp only [run] at h
    obtain ⟨st1, h1, h2⟩ := List.mem_flatMap.1 h
    obtain ⟨w1, e1, p1, c1⟩ := iha st st1 h1
    obtain ⟨w2, e2, p2, c2⟩ := ihb st1 st2 h2
    refine ⟨w1 ++ w2, by rw [e1, e2, List.append_assoc], by rw [p2, p1]; simp; omega, ?_⟩
    intro c hc
    rcases List.mem_append.1 hc with hc | hc
    · simp [mayConsume, c1 c hc]
    · simp [mayConsume, c2 c hc]
  | alt a b iha ihb =>
    simp only [run, List.mem_append] at h
    rcases h with h | h
    · obtain ⟨w, e, p, c1⟩ := iha st st2 h
      exact ⟨w, e, p, fun c hc => by simp [mayConsume, c1 c hc]⟩
    · obtain ⟨w, e, p, c1⟩ := ihb st st2 h
      exact ⟨w, e, p, fun c hc => by simp [mayConsume, c1 c hc]⟩
  | opt a iha =>
    simp only [run, List.mem_append, List.mem_singleton] at h
    rcases h with h | h
    · obtain ⟨w, e, p, c1⟩ := iha st st2 h
      exact ⟨w, e, p, fun c hc => by simp [mayConsume, c1 c hc]⟩
    · subst h
      exact ⟨[], by simp, by simp, by simp⟩
  | rep a min max iha =>
    simp only [run] at h
    exact runRep_consumed (run a) (fun c => mayConsume (Re.rep a min max) c = true)
      (fun s1 s2 hs => by
        obtain ⟨w, e, p, c1⟩ := iha s1 s2 hs
        exact ⟨w, e, p, fun c hc => by simp [mayConsume, c1 c hc]⟩) min max st st2 h
  | group name a iha =>
    simp only [run] at h
    obtain ⟨st1, h1, rfl⟩ := List.mem_map.1 h
    obtain ⟨w, e, p, c1⟩ := iha st st1 h1
    exact ⟨w, e, p, fun c hc => by simp [mayConsume, c1 c hc]⟩

theorem runRep_caps (f : MState → List MState)
    (hf : ∀ st st2, st2 ∈ f st → st2.caps = st.caps)
    (min max : Nat) (st st2 : MState) (h : st2 ∈ runRep f min max st) : st2.caps = st.caps := by
  induction max generalizing min st with
  | zero =>
    simp only [runRep, List.mem_singleton] at h
    rw [h]
  | succ max ih =>
    cases min with
    | zero =>
      simp only [runRep, List.mem_append, List.mem_singleton] at h
      rcases h with h | h
      · obtain ⟨st1, h1, h2⟩ := List.mem_flatMap.1 h
        rw [ih 0 st1 h2, hf st st1 h1]
      · rw [h]
    | succ min =>
      simp only [runRep] at h
      obtain ⟨st1, h1, h2⟩ := List.mem_flatMap.1 h
      rw [ih min st1 h2, hf st st1 h1]

/-- A tree without capture group leaves the captures as they were. -/
theorem run_caps (re : Re) (hng : noGroup re = true) (st st2 : MState) (h : st2 ∈ run re st) :
    st2.caps = st.caps := by
  induction re generalizing st st2 with
  | lits s =>
    simp only [run] at h
    split at h
    · simp only [List.mem_singleton] at h
      rw [h]
    · simp at h
  | cls items =>
    simp only [run] at h
    split at h
    · simp at h
    · split at h
      · simp only [List.mem_singleton] at h
        rw [h]
      · simp at h
  | perlSpace =>
    simp only [run] at h
    split at h
    · simp at h
    · split at h
      · simp only [List.mem_singleton] at h
        rw [h]
      · simp at h
  | bol =>
    simp only [run] at h
    split at h
    · simp only [List.mem_singleton] at h
      rw [h]
    · simp at h
  | eol =>
    simp only [run] at h
    split at h
    · simp only [List.mem_singleton] at h
      rw [h]
    · simp at h
  | cat a b iha ihb =>
    simp only [noGroup, Bool.and_eq_true] at hng
    simp only [run] at h
    obtain ⟨st1, h1, h2⟩ := List.mem_flatMap.1 h
    rw [ihb hng.2 st1 st2 h2, iha hng.1 st st1 h1]
  | alt a b iha ihb =>
    simp only [noGroup, Bool.and_eq_true] at hng
    simp only [run, List.mem_append] at h
    rcases h with h | h
    · exact iha hng.1 st st2 h
    · exact ihb hng.2 st st2 h
  | opt a iha =>
    simp only [noGroup] at hng
    simp only [run, List.mem_append, List.mem_singleton] at h
    rcases h with h | h
    · exact iha hng st st2 h
    · rw [h]
  | rep a min max iha =>
    simp only [noGroup] at hng
    simp only [run] at h
    exact runRep_caps (run a) (fun s1 s2 hs => iha hng s1 s2 hs) min max st st2 h
  | group name a _ => simp [noGroup] at hng

theorem mem_cat_iff (a b : Re) (st st2 : MState) :
    st2 ∈ run (Re.cat a b) st ↔ ∃ st1 ∈ run a st, st2 ∈ run b st1 := by
  simp only [run, List.mem_flatMap]

theorem mem_opt_iff (a : Re) (st st2 : MState) :
    st2 ∈ run (Re.opt a) st ↔ st2 ∈ run a st ∨ st2 = st := by
  simp only [run, List.mem_append, List.mem_singleton]

theorem mem_bol_iff (st st2 : MState) : st2 ∈ run Re.bol st ↔ st.pos = 0 ∧ st2 = st := by
  simp only [run]
  split <;> simp_all

theorem mem_eol_iff (st st2 : MState) : st2 ∈ run Re.eol st ↔ st.rest = [] ∧ st2 = st := by
  simp only [run]
  split <;> simp_all

theorem mem_group_iff (name : Str) (a : Re) (st st2 : MState) :
    st2 ∈ run (Re.group name a) st ↔ ∃ st1 ∈ run a st,
      st2 = { st1 with caps := (name, st.rest.take (st1.pos - st.pos)) :: st1.caps } := by
  simp only [run, List.mem_map]
  constructor
  · rintro ⟨x, hx, rfl⟩; exact ⟨x, hx, rfl⟩
  · rintro ⟨x, hx, rfl⟩; exact ⟨x, hx, rfl⟩

theorem mem_perlSpace (st st2 : MState) (h : st2 ∈ run Re.perlSpace st) :
    ∃ r rs, st.rest = r :: rs ∧ mayConsume Re.perlSpace r = true
      ∧ st2 = { st with pos := st.pos + 1, rest := rs } := by
  simp only [run] at h
  split at h
  · simp at h
  · rename_i r rs hr
    split at h
    · rename_i ha
      simp only [List.mem_singleton] at h
      exact ⟨r, rs, hr, by simpa [mayConsume] using ha, h⟩
    · simp at h

/-- A match found among the threads from the start of the text is what
`FindStringSubmatch` returns a thread of. -/
theorem FindStringSubmatch_of_mem (re : Re) (q : Str) (m0 : MState)
    (h : m0 ∈ run re { pos := 0, rest := q, caps := [] }) :
    ∃ m, FindStringSubmatch re q = some m ∧ m ∈ run re { pos := 0, rest := q, caps := [] } := by
  cases hrun : run re { pos := 0, rest := q, caps := [] } with
  | nil => rw [hrun] at h; simp at h
  | cons st tl =>
    refine ⟨st, ?_, by simp⟩
    cases q with
    | nil => simp [FindStringSubmatch, findFrom, hrun]
    | cons r rs => simp [FindStringSubmatch, findFrom, hrun]

theorem findFrom_bol_none (x : Re) (pos : Nat) (rest : Str) :
    findFrom (Re.cat Re.bol x) (pos + 1) rest = none := by
  induction rest generalizing pos with
  | nil => simp [findFrom, run]
  | cons r rs ih =>
    simp only [findFrom, run, Nat.add_one_ne_zero, if_false, List.flatMap_nil]
    exact ih (pos + 1)

/-- A pattern that begins with `^` and has no thread from the start of the
text has no match. -/
theorem FindStringSubmatch_bol_none (x : Re) (q : Str)
    (h : run (Re.cat Re.bol x) { pos := 0, rest := q, caps := [] } = []) :
    FindStringSubmatch (Re.cat Re.bol x) q = none := by
  cases q with
  | nil => simp [FindStringSubmatch, findFrom, h]
  | cons r rs =>
    simp only [FindStringSubmatch, findFrom, h]
    exact findFrom_bol_none x 0 rs

theorem runRep_mem (f : MState → List MState)
    (P : Char → Prop)
    (hf : ∀ (c : Char) (p : Nat) (r : Str) (caps : List (Str × Str)), P c →
      { pos := p + 1, rest := r, caps := caps } ∈ f { pos := p, rest := c :: r, caps := caps })
    (min max : Nat) (w r : Str) (p : Nat) (caps : List (Str × Str))
    (hmin : min ≤ w.length) (hmax : w.length ≤ max) (hw : ∀ c ∈ w, P c) :
    ({ pos := p + w.length, rest := r, caps := caps } : MState)
      ∈ runRep f min max { pos := p, rest := w ++ r, caps := caps } := by
  induction max generalizing min w p with
  | zero =>
    have : w = [] := List.length_eq_zero.1 (by omega)
    subst this
    simp [runRep]
  | succ max ih =>
    cases w with
    | nil =>
      have : min = 0 := by simpa using hmin
      subst this
      simp [runRep]
    | cons c w =>
      have hc := hf c p (w ++ r) caps (hw c (List.mem_cons_self _ _))
      have hw2 : ∀ x ∈ w, P x := fun x hx => hw x (List.mem_cons_of_mem _ hx)
      have hlen : w.length ≤ max := by simpa using hmax
      have hpos : p + (c :: w).length = p + 1 + w.length := by simp; omega
      rw [hpos]
      cases min with
      | zero =>
        simp only [runRep, List.cons_append, List.mem_append]
        left
        exact List.mem_flatMap.2 ⟨_, hc, ih 0 w (p + 1) (by omega) hlen hw2⟩
      | succ min =>
        simp only [runRep, List.cons_append]
        have hmin2 : min ≤ w.length := by simpa using hmin
        exact List.mem_flatMap.2 ⟨_, hc, ih min w (p + 1) hmin2 hlen hw2⟩

end regexp

open regexp

theorem stockLetter_mem (c : Char) (p : Nat) (r : Str) (caps : List (Str × Str))
    (hc : isAsciiLetter c) :
    ({ pos := p + 1, rest := r, caps := caps } : MState)
      ∈ run stockLetter { pos := p, rest := c :: r, caps := caps } := by
  unfold isAsciiLetter at hc
  simp only [run, stockLetter, List.any_cons, List.any_nil, ClassItem.admits, Bool.or_false]
  rcases hc with hc | hc
  · simp [hc]
  · simp [hc]

theorem opt_char_mem (x : Char) (d r : Str) (p : Nat) (caps : List (Str × Str))
    (hd : d = [] ∨ d = [x]) :
    ({ pos := p + d.length, rest := r, caps := caps } : MState)
      ∈ run (Re.opt (Re.cls [ClassItem.esc x])) { pos := p, rest := d ++ r, caps := caps } := by
  rcases hd with rfl | rfl
  · simp [run]
  · simp [run, ClassItem.admits]

theorem opt_letter_mem (l2 r : Str) (p : Nat) (caps : List (Str × Str))
    (hlen : l2.length ≤ 1) (hl : ∀ c ∈ l2, isAsciiLetter c) :
    ({ pos := p + l2.length, rest := r, caps := caps } : MState)
      ∈ run (Re.opt stockLetter) { pos := p, rest := l2 ++ r, caps := caps } := by
  rw [mem_opt_iff]
  cases l2 with
  | nil => right; simp
  | cons c cs =>
    have : cs = [] := List.length_eq_zero.1 (by simpa using hlen)
    subst this
    left
    exact stockLetter_mem c p r caps (hl c (List.mem_cons_self _ _))

/-- A ticker at the start of the text is read in full by the `ticker`
pattern. -/
theorem stockTicker_mem (d l1 dot l2 tail : Str) (caps : List (Str × Str))
    (hd : d = [] ∨ d = ['$']) (h1 : 1 ≤ l1.length) (h5 : l1.length ≤ 5)
    (hl1 : ∀ c ∈ l1, isAsciiLetter c) (hdot : dot = [] ∨ dot = ['.'])
    (hlen2 : l2.length ≤ 1) (hl2 : ∀ c ∈ l2, isAsciiLetter c) :
    ({ pos := (d ++ l1 ++ dot ++ l2).length, rest := tail, caps := caps } : MState)
      ∈ run stockTicker { pos := 0, rest := d ++ l1 ++ dot ++ l2 ++ tail, caps := caps } := by
  unfold stockTicker
  rw [mem_cat_iff]
  refine ⟨_, (mem_bol_iff _ _).2 ⟨rfl, rfl⟩, ?_⟩
  rw [mem_cat_iff]
  refine ⟨{ pos := 0 + d.length, rest := l1 ++ (dot ++ (l2 ++ tail)), caps := caps }, ?_, ?_⟩
  · have := opt_char_mem '$' d (l1 ++ (dot ++ (l2 ++ tail))) 0 caps hd
    simpa using this
  rw [mem_cat_iff]
  refine ⟨{ pos := 0 + d.length + l1.length, rest := dot ++ (l2 ++ tail), caps := caps }, ?_, ?_⟩
  · simp only [run]
    exact runRep_mem (run stockLetter) isAsciiLetter
      (fun c p r caps hc => stockLetter_mem c p r caps hc) 1 5 l1 _ _ caps h1 h5 hl1
  rw [mem_cat_iff]
  refine ⟨{ pos := 0 + d.length + l1.length + dot.length, rest := l2 ++ tail, caps := caps },
    opt_char_mem '.' dot (l2 ++ tail) _ caps hdot, ?_⟩
  have := opt_letter_mem l2 tail (0 + d.length + l1.length + dot.length) caps hlen2 hl2
  have hp : (d ++ l1 ++ dot ++ l2).length = 0 + d.length + l1.length + dot.length + l2.length := by
    simp only [List.length_append]; omega
  rw [hp]
  exact this

theorem mayConsume_stockTicker (c : Char) (h : mayConsume stockTicker c = true) :
    c = '$' ∨ c = '.' ∨ isAsciiLetter c := by
  simp only [stockTicker, stockLetter, mayConsume, List.any_cons, List.any_nil,
    ClassItem.admits, Bool.or_false, Bool.false_or, Bool.or_eq_true, decide_eq_true_eq] at h
  unfold isAsciiLetter
  rcases h with h | h | h | h
  · exact Or.inl h
  · rcases h with h | h
    · exact Or.inr (Or.inr (Or.inl h))
    · exact Or.inr (Or.inr (Or.inr h))
  · exact Or.inr (Or.inl h)
  · rcases h with h | h
    · exact Or.inr (Or.inr (Or.inl h))
    · exact Or.inr (Or.inr (Or.inr h))

theorem not_space_of_ticker_char (c : Char) (h : c = '$' ∨ c = '.' ∨ isAsciiLetter c) :
    mayConsume Re.perlSpace c = false := by
  simp only [mayConsume, decide_eq_false_iff_not]
  unfold isAsciiLetter at h
  rcases h with rfl | rfl | h
  · decide
  · decide
  · intro hc
    rcases hc with rfl | rfl | rfl | rfl | rfl <;> revert h <;> decide

theorem isTicker_chars (s : Str) (h : isTicker s) :
    ∀ c ∈ s, c = '$' ∨ c = '.' ∨ isAsciiLetter c := by
  obtain ⟨d, l1, dot, l2, rfl, hd, -, -, hl1, hdot, -, hl2⟩ := h
  intro c hc
  simp only [List.mem_append] at hc
  rcases hc with ((hc | hc) | hc) | hc
  · rcases hd with rfl | rfl
    · simp at hc
    · left; simpa using hc
  · exact Or.inr (Or.inr (hl1 c hc))
  · rcases hdot with rfl | rfl
    · simp at hc
    · right; left; simpa using hc
  · exact Or.inr (Or.inr (hl2 c hc))

/-- Each trigger word is read in full by the trigger alternation. -/
theorem stockTrigger_mem (t : Str) (ht : t ∈ stockTriggerWords) (p : Nat)
    (caps : List (Str × Str)) :
    ∃ m ∈ run stockTrigger { pos := p, rest := t, caps := caps }, m.rest = [] := by
  simp only [stockTriggerWords, List.mem_cons, List.mem_singleton, List.not_mem_nil,
    or_false] at ht
  rcases ht with rfl | rfl | rfl | rfl | rfl | rfl <;>
    simp [stockTrigger, stockTriggerWord, run, ClassItem.admits]

/-- The trees of `setRegex` print as the pattern texts the source builds. -/
theorem setRegex_patterns : setRegex.map Re.toPattern = stockPatterns := by decide

/-- Whatever the text, a match of the first pattern has the whole text in its
`remainder` group, read by the `ticker` pattern: the `^` inside the group
pins it to the start of the text. -/
theorem stockRegex1_capture (q : Str) (m : MState)
    (h : m ∈ run stockRegex1 { pos := 0, rest := q, caps := [] }) :
    m.group "remainder".toList = q ∧ ∀ c ∈ q, mayConsume stockTicker c = true := by
  have he : stockRegex1 = Re.cat Re.bol
      (Re.cat (Re.opt (Re.group "trigger".toList stockTrigger))
        (Re.cat (Re.opt Re.perlSpace)
          (Re.cat (Re.group "remainder".toList stockTicker) Re.eol))) := rfl
  rw [he, mem_cat_iff] at h
  obtain ⟨s0, h0, h⟩ := h
  rw [mem_bol_iff] at h0
  obtain ⟨-, rfl⟩ := h0
  rw [mem_cat_iff] at h
  obtain ⟨s1, h1, h⟩ := h
  rw [mem_cat_iff] at h
  obtain ⟨s2, h2, h⟩ := h
  rw [mem_cat_iff] at h
  obtain ⟨s3, h3, h⟩ := h
  rw [mem_eol_iff] at h
  obtain ⟨hr, rfl⟩ := h
  rw [mem_group_iff] at h3
  obtain ⟨s4, h4, rfl⟩ := h3
  have hpos : s2.pos = 0 := by
    have h5 := h4
    unfold stockTicker at h5
    rw [mem_cat_iff] at h5
    obtain ⟨x, hx, -⟩ := h5
    exact ((mem_bol_iff _ _).1 hx).1
  obtain ⟨w1, e1, p1, -⟩ := run_consumed _ _ _ h1
  obtain ⟨w2, e2, p2, -⟩ := run_consumed _ _ _ h2
  obtain ⟨w, e, p, hc⟩ := run_consumed _ _ _ h4
  simp only at e1 p1 hr
  have hw1 : w1 = [] := List.length_eq_zero.1 (by omega)
  have hw2 : w2 = [] := List.length_eq_zero.1 (by omega)
  subst hw1 hw2
  simp only [List.nil_append] at e1 e2
  have hq : q = w := by rw [e1, e2, e, hr, List.append_nil]
  subst hq
  refine ⟨?_, hc⟩
  have ht : List.take (s4.pos - s2.pos) s2.rest = q := by
    rw [e, p, hr]; simp
  simp [MState.group, ht]

theorem split_unique (P : Char → Prop) (w s rs t : Str) (r x : Char)
    (h : w ++ r :: rs = s ++ x :: t) (hw : ∀ c ∈ w, ¬ P c) (hr : P r)
    (hs : ∀ c ∈ s, ¬ P c) (hx : P x) : w = s := by
  induction w generalizing s with
  | nil =>
    cases s with
    | nil => rfl
    | cons a s =>
      simp only [List.nil_append, List.cons_append, List.cons.injEq] at h
      exact absurd (h.1 ▸ hr) (hs a (List.mem_cons_self _ _))
  | cons b w ih =>
    cases s with
    | nil =>
      simp only [List.nil_append, List.cons_append, List.cons.injEq] at h
      exact absurd (h.1 ▸ hx) (hw b (List.mem_cons_self _ _))
    | cons a s =>
      simp only [List.cons_append, List.cons.injEq] at h
      rw [h.1, ih s h.2 (fun c hc => hw c (List.mem_cons_of_mem _ hc))
        (fun c hc => hs c (List.mem_cons_of_mem _ hc))]

/-- A match of the second pattern on a text whose first white space follows
`s` has exactly `s` in its `remainder` group. -/
theorem stockRegex2_capture (s t : Str) (m : MState)
    (hs : ∀ c ∈ s, mayConsume Re.perlSpace c = false)
    (h : m ∈ run stockRegex2 { pos := 0, rest := s ++ ' ' :: t, caps := [] }) :
    m.group "remainder".toList = s := by
  have he : stockRegex2 = Re.cat Re.bol
      (Re.cat (Re.group "remainder".toList stockTicker)
        (Re.cat Re.perlSpace
          (Re.cat (Re.opt (Re.group "trigger".toList stockTrigger)) Re.eol))) := rfl
  rw [he, mem_cat_iff] at h
  obtain ⟨s0, h0, h⟩ := h
  rw [mem_bol_iff] at h0
  obtain ⟨-, rfl⟩ := h0
  rw [mem_cat_iff] at h
  obtain ⟨s1, h1, h⟩ := h
  rw [mem_cat_iff] at h
  obtain ⟨s2, h2, h⟩ := h
  rw [mem_cat_iff] at h
  obtain ⟨s3, h3, h⟩ := h
  rw [mem_eol_iff] at h
  obtain ⟨-, rfl⟩ := h
  rw [mem_group_iff] at h1
  obtain ⟨s4, h4, rfl⟩ := h1
  obtain ⟨w, e, p, hc⟩ := run_consumed _ _ _ h4
  obtain ⟨r, rs, er, hr, rfl⟩ := mem_perlSpace _ _ h2
  simp only at e p er
  rw [er] at e
  have hw : w = s := by
    refine split_unique (fun c => mayConsume Re.perlSpace c = true) w s rs t r ' ' e.symm ?_ hr
      ?_ (by decide)
    · intro c hcw
      show ¬ (mayConsume Re.perlSpace c = true)
      rw [not_space_of_ticker_char c (mayConsume_stockTicker c (hc c hcw))]
      simp
    · intro c hcs
      show ¬ (mayConsume Re.perlSpace c = true)
      rw [hs c hcs]
      simp
  subst hw
  have ht : List.take s4.pos (w ++ ' ' :: t) = w := by
    rw [p]; simp
  rw [mem_opt_iff] at h3
  rcases h3 with h3 | rfl
  · rw [mem_group_iff] at h3
    obtain ⟨s5, h5, rfl⟩ := h3
    have hcaps := run_caps stockTrigger (by decide) _ _ h5
    simp only at hcaps
    simp [MState.group, hcaps, ht]
  · simp [MState.group, ht]

theorem perlSpace_mem (p : Nat) (t : Str) (caps : List (Str × Str)) :
    ({ pos := p + 1, rest := t, caps := caps } : MState)
      ∈ run Re.perlSpace { pos := p, rest := ' ' :: t, caps := caps } := by
  simp [run]

/-- Every ticker of the specification has a match of the first pattern. -/
theorem stockRegex1_mem (d l1 dot l2 : Str)
    (hd : d = [] ∨ d = ['$']) (h1 : 1 ≤ l1.length) (h5 : l1.length ≤ 5)
    (hl1 : ∀ c ∈ l1, isAsciiLetter c) (hdot : dot = [] ∨ dot = ['.'])
    (hlen2 : l2.length ≤ 1) (hl2 : ∀ c ∈ l2, isAsciiLetter c) :
    ∃ m0, m0 ∈ run stockRegex1 { pos := 0, rest := d ++ l1 ++ dot ++ l2, caps := [] } := by
  have hT := stockTicker_mem d l1 dot l2 [] [] hd h1 h5 hl1 hdot hlen2 hl2
  rw [List.append_nil] at hT
  have h4 := (mem_group_iff "remainder".toList _ _ _).2 ⟨_, hT, rfl⟩
  have h5 := (mem_cat_iff _ Re.eol _ _).2 ⟨_, h4, (mem_eol_iff _ _).2 ⟨rfl, rfl⟩⟩
  have h6 := (mem_cat_iff (Re.opt Re.perlSpace) _ _ _).2
    ⟨_, (mem_opt_iff _ _ _).2 (Or.inr rfl), h5⟩
  have h7 := (mem_cat_iff (Re.opt (Re.group "trigger".toList stockTrigger)) _ _ _).2
    ⟨_, (mem_opt_iff _ _ _).2 (Or.inr rfl), h6⟩
  have h8 := (mem_cat_iff Re.bol _ _ _).2 ⟨_, (mem_bol_iff _ _).2 ⟨rfl, rfl⟩, h7⟩
  exact ⟨_, h8⟩

/-- Every ticker of the specification followed by a space and a trigger word
has a match of the second pattern. -/
theorem stockRegex2_mem (d l1 dot l2 t : Str)
    (hd : d = [] ∨ d = ['$']) (h1 : 1 ≤ l1.length) (h5 : l1.length ≤ 5)
    (hl1 : ∀ c ∈ l1, isAsciiLetter c) (hdot : dot = [] ∨ dot = ['.'])
    (hlen2 : l2.length ≤ 1) (hl2 : ∀ c ∈ l2, isAsciiLetter c) (ht : t ∈ stockTriggerWords) :
    ∃ m0, m0 ∈ run stockRegex2
      { pos := 0, rest := d ++ l1 ++ dot ++ l2 ++ ' ' :: t, caps := [] } := by
  have hT := stockTicker_mem d l1 dot l2 (' ' :: t) [] hd h1 h5 hl1 hdot hlen2 hl2
  have h2 := (mem_group_iff "remainder".toList _ _ _).2 ⟨_, hT, rfl⟩
  have h3 := perlSpace_mem (d ++ l1 ++ dot ++ l2).length t
    [("remainder".toList,
      List.take ((d ++ l1 ++ dot ++ l2).length - 0) (d ++ l1 ++ dot ++ l2 ++ ' ' :: t))]
  obtain ⟨m5, hm5, hrest⟩ := stockTrigger_mem t ht ((d ++ l1 ++ dot ++ l2).length + 1)
    [("remainder".toList,
      List.take ((d ++ l1 ++ dot ++ l2).length - 0) (d ++ l1 ++ dot ++ l2 ++ ' ' :: t))]
  have h4 := (mem_opt_iff _ _ _).2 (Or.inl ((mem_group_iff "trigger".toList _ _ _).2
    ⟨m5, hm5, rfl⟩))
  have h5 := (mem_cat_iff _ Re.eol _ _).2 ⟨_, h4, (mem_eol_iff _ _).2 ⟨hrest, rfl⟩⟩
  have h6 := (mem_cat_iff Re.perlSpace _ _ _).2 ⟨_, h3, h5⟩
  have h7 := (mem_cat_iff _ _ _ _).2 ⟨_, h2, h6⟩
  have h8 := (mem_cat_iff Re.bol _ _ _).2 ⟨_, (mem_bol_iff _ _).2 ⟨rfl, rfl⟩, h7⟩
  exact ⟨_, h8⟩

/-- C7: the trees of `setRegex` are the patterns of the source; `quote AAPL`
and `stock $brk.a` are matched by neither of them, and no text of the form
trigger, space, ticker (no text with a space at all) is matched by the first:
its `remainder` group starts with `^`, so nothing can come before it. -/
theorem stock_trigger_first_unmatched :
    setRegex.map Re.toPattern = stockPatterns
      ∧ FindStringSubmatch stockRegex1 "quote AAPL".toList = none
      ∧ FindStringSubmatch stockRegex2 "quote AAPL".toList = none
      ∧ FindStringSubmatch stockRegex1 "stock $brk.a".toList = none
      ∧ FindStringSubmatch stockRegex2 "stock $brk.a".toList = none
      ∧ ∀ t s : Str, FindStringSubmatch stockRegex1 (t ++ " ".toList ++ s) = none := by
  refine ⟨setRegex_patterns, by decide, by decide, by decide, by decide, ?_⟩
  intro t s
  apply FindStringSubmatch_bol_none
  rw [List.eq_nil_iff_forall_not_mem]
  intro m hm
  have h := (stockRegex1_capture (t ++ " ".toList ++ s) m hm).2 ' '
    (by rw [show " ".toList = [(' ' : Char)] from rfl]; simp)
  revert h
  decide

/-- C8: for every ticker `s` of the specification, `s` alone is matched by
the first pattern of `setRegex` and `s`, a space and a trigger word by the
second, and the `remainder` group is `s` in both; so for `brk.a` and
`AAPL quote`. -/
theorem stock_bare_and_ticker_first (s : Str) (hs : isTicker s) :
    (∃ m, FindStringSubmatch stockRegex1 s = some m ∧ m.group "remainder".toList = s)
      ∧ (∀ t ∈ stockTriggerWords, ∃ m,
          FindStringSubmatch stockRegex2 (s ++ " ".toList ++ t) = some m
            ∧ m.group "remainder".toList = s)
      ∧ (FindStringSubmatch stockRegex1 "brk.a".toList).map
          (fun m => m.group "remainder".toList) = some "brk.a".toList
      ∧ (FindStringSubmatch stockRegex2 "AAPL quote".toList).map
          (fun m => m.group "remainder".toList) = some "AAPL".toList
      ∧ setRegex.map Re.toPattern = stockPatterns := by
  have hchars := isTicker_chars s hs
  obtain ⟨d, l1, dot, l2, rfl, hd, h1, h5, hl1, hdot, hlen2, hl2⟩ := hs
  refine ⟨?_, ?_, by decide, by decide, setRegex_patterns⟩
  · have hmem := stockRegex1_mem d l1 dot l2 hd h1 h5 hl1 hdot hlen2 hl2
    obtain ⟨m0, hm0⟩ := hmem
    obtain ⟨m, hfind, hm⟩ := FindStringSubmatch_of_mem _ _ m0 hm0
    exact ⟨m, hfind, (stockRegex1_capture _ m hm).1⟩
  · intro t ht
    rw [show " ".toList = [(' ' : Char)] from rfl, List.append_assoc, List.singleton_append]
    have hmem := stockRegex2_mem d l1 dot l2 t hd h1 h5 hl1 hdot hlen2 hl2 ht
    obtain ⟨m0, hm0⟩ := hmem
    obtain ⟨m, hfind, hm⟩ := FindStringSubmatch_of_mem _ _ m0 hm0
    refine ⟨m, hfind, stockRegex2_capture _ t m ?_ hm⟩
    intro c hc
    exact not_space_of_ticker_char c (hchars c hc)

/-- Witness of C8: the ticker `brk.a`. -/
theorem stock_bare_and_ticker_first_witness :
    ∃ m, FindStringSubmatch stockRegex1 "brk.a".toList = some m
      ∧ m.group "remainder".toList = "brk.a".toList :=
  (stock_bare_and_ticker_first "brk.a".toList
    ⟨[], "brk".toList, ['.'], ['a'], by decide, by decide, by decide, by decide, by decide,
      by decide, by decide, by decide⟩).1

/-! ## The default registry -/

/-- The names, triggers and regions of the default registry do not depend on
the Unicode tables. -/
theorem New_data (T : UnicodeTables) :
    (New T).Bangs.map (fun bng => (bng.Name, bng.Triggers, bng.Regions))
      = newAscii.Bangs.map (fun bng => (bng.Name, bng.Triggers, bng.Regions)) := rfl

/-- Every bang of the default registry has a `default` region. -/
theorem New_has_default (T : UnicodeTables) :
    ∀ bng ∈ (New T).Bangs, ∃ u, mapLookup defKey bng.Regions = some u := by
  have h : ∀ d ∈ (New T).Bangs.map (fun bng => (bng.Name, bng.Triggers, bng.Regions)),
      (mapLookup defKey d.2.2).isSome = true := by
    rw [New_data]
    decide
  intro bng hb
  exact Option.isSome_iff_exists.1 (h _ (List.mem_map_of_mem _ hb))

/-- C12: every bang of the registry built by `New` has a `default` entry in
its `Regions` map and a non-empty list of triggers. -/
theorem New_well_formed (T : UnicodeTables) :
    ∀ bng ∈ (New T).Bangs,
      (∃ u, mapLookup defKey bng.Regions = some u) ∧ bng.Triggers ≠ [] := by
  have h : ∀ d ∈ (New T).Bangs.map (fun bng => (bng.Name, bng.Triggers, bng.Regions)),
      (mapLookup defKey d.2.2).isSome = true ∧ d.2.1 ≠ [] := by
    rw [New_data]
    decide
  intro bng hb
  have h2 := h _ (List.mem_map_of_mem _ hb)
  exact ⟨Option.isSome_iff_exists.1 h2.1, h2.2⟩

/-- Witness of C12: the Wikipedia bang, the last of the default registry. -/
theorem New_well_formed_witness :
    (∃ u, mapLookup defKey (newAscii.Bangs.get ⟨9, by decide⟩).Regions = some u)
      ∧ (newAscii.Bangs.get ⟨9, by decide⟩).Triggers ≠ [] :=
  New_well_formed asciiTables (newAscii.Bangs.get ⟨9, by decide⟩) (List.get_mem _ _ _)

/-! ## Totality of `Detect` -/

/-- The loop over the bangs does not panic at an index inside the array, and
it leaves the array with the length it had. -/
theorem detectBangs_total (T : UnicodeTables) (k : Str) (i : Nat) (region : Region) (l : Tag)
    (bangs : List Bang) (fields : List Str) (hi : i < fields.length) :
    ∃ r out, detectBangs T k i region l bangs fields = some (r, out)
      ∧ out.length = fields.length := by
  induction bangs generalizing fields with
  | nil => exact ⟨none, fields, rfl, rfl⟩
  | cons bng rest ih =>
    by_cases ht : trigger k bng.Triggers = false
    · simp only [detectBangs, ht, if_true]
      exact ih fields hi
    · have hlen : (List.take i fields ++ List.drop (i + 1) fields
          ++ List.drop (List.take i fields ++ List.drop (i + 1) fields).length fields).length
          = fields.length := by
        simp only [List.length_append, List.length_take, List.length_drop]
        omega
      simp only [detectBangs, ht, if_false, slice_front fields i (Nat.le_of_lt hi),
        slice_back fields i hi]
      cases hreg : detectRegions bng
          (List.foldl (fun r fn => fn r)
            (strings.Join (List.take i fields ++ List.drop (i + 1) fields) " ".toList)
            bng.Transformations) l [strings.ToLower T region.String, defKey] with
      | some u => exact ⟨some u, _, rfl, hlen⟩
      | none =>
        obtain ⟨r, out, h1, h2⟩ := ih _ (by rw [hlen]; exact hi)
        exact ⟨r, out, h1, by rw [h2, hlen]⟩

/-- The loop over the tokens does not panic, and it returns the empty string
when it finds nothing. -/
theorem detectFields_total (T : UnicodeTables) (bangs : List Bang) (region : Region) (l : Tag)
    (is : List Nat) (fields : List Str) (his : ∀ i ∈ is, i < fields.length) :
    ∃ u found, detectFields T bangs region l is fields = some (u, found)
      ∧ (found = false → u = []) := by
  induction is generalizing fields with
  | nil => exact ⟨[], false, rfl, fun _ => rfl⟩
  | cons i is ih =>
    have hi := his i (List.mem_cons_self _ _)
    simp only [detectFields]
    split
    · exact ih fields (fun j hj => his j (List.mem_cons_of_mem _ hj))
    · obtain ⟨r, out, h1, h2⟩ := detectBangs_total T
        (strings.ToLower T (strings.Trim (fields.getD i []) "!".toList)) i region l bangs fields hi
      rw [h1]
      cases r with
      | some u => exact ⟨u, true, rfl, fun h => by cases h⟩
      | none =>
        exact ih out (fun j hj => by rw [h2]; exact his j (List.mem_cons_of_mem _ hj))

/-- C16: `Detect` never panics: for every registry, query, region and
language it returns a result (the slice expressions stay within bounds),
the string of a result without match is empty, a query none of whose tokens
fires returns the empty string and `false`, and so does every query on the
empty registry. -/
theorem Detect_total (T : UnicodeTables) (b : Bangs) (q : Str) (region : Region) (l : Tag) :
    (∃ u found, Detect T b q region l = some (u, found) ∧ (found = false → u = []))
      ∧ ((∀ f ∈ strings.Fields q, ¬ fires T b.Bangs f)
        → Detect T b q region l = some ([], false))
      ∧ Detect T { Bangs := [], Suggester := b.Suggester } q region l = some ([], false) := by
  refine ⟨?_, Detect_no_fire T b q region l, ?_⟩
  · unfold Detect
    exact detectFields_total T b.Bangs region l _ _ (fun i hi => List.mem_range.1 hi)
  · apply Detect_no_fire
    rintro f - ⟨-, -, bng, hb, -⟩
    simp at hb

/-- Witness of C16: `hello world` on the registry `twoOwners`, one of whose
bangs has an empty `Regions` map. -/
theorem Detect_total_witness :
    Detect asciiTables twoOwners "hello world".toList ⟨"".toList⟩ ⟨"en".toList⟩
      = some ([], false) :=
  (Detect_total asciiTables twoOwners "hello world".toList ⟨"".toList⟩ ⟨"en".toList⟩).2.1
    (by decide)

/-! ## The `!afr` shortcut -/

/-- No bang of the default registry has the trigger `afr`. -/
theorem New_no_afr (T : UnicodeTables) : ∀ bng ∈ (New T).Bangs, "afr".toList ∉ bng.Triggers := by
  have h : ∀ d ∈ (New T).Bangs.map (fun bng => (bng.Name, bng.Triggers, bng.Regions)),
      "afr".toList ∉ d.2.1 := by
    rw [New_data]
    decide
  intro bng hb
  exact h _ (List.mem_map_of_mem _ hb)

/-- C13: in the registry built by `New` no bang owns `afr`: `Detect` finds
nothing on `!afr beach chair`, nor on any query made of the token `!afr` and
tokens that do not fire, whatever the region and the language, although the
comment of `New` announces `!afr` as Amazon France. -/
theorem Detect_afr_not_found (T : UnicodeTables) (region : Region) (l : Tag) :
    Detect T (New T) "!afr beach chair".toList region l = some ([], false)
      ∧ ∀ (q : Str) (post : List Str), strings.Fields q = "!afr".toList :: post →
        (∀ f ∈ post, ¬ fires T (New T).Bangs f) →
          Detect T (New T) q region l = some ([], false) := by
  have hafr : ¬ fires T (New T).Bangs "!afr".toList := by
    rintro ⟨-, -, bng, hb, hk⟩
    exact New_no_afr T bng hb hk
  refine ⟨?_, ?_⟩
  · apply Detect_no_fire
    intro f hf
    have hF : strings.Fields "!afr beach chair".toList
        = ["!afr".toList, "beach".toList, "chair".toList] := by decide
    rw [hF] at hf
    simp only [List.mem_cons, List.mem_singleton, List.not_mem_nil, or_false] at hf
    rcases hf with rfl | rfl | rfl
    · exact hafr
    · rintro ⟨h1, h2, -⟩
      revert h1 h2
      decide
    · rintro ⟨h1, h2, -⟩
      revert h1 h2
      decide
  · intro q post hq hpost
    apply Detect_no_fire
    intro f hf
    rw [hq] at hf
    rcases List.mem_cons.1 hf with rfl | hf
    · exact hafr
    · exact hpost f hf

/-! ## Reachability of the triggers -/

theorem dropWhile_none {α : Type} (p : α → Bool) (xs : List α) (h : ∀ x ∈ xs, p x = false) :
    xs.dropWhile p = xs := by
  cases xs with
  | nil => rfl
  | cons x xs => simp [List.dropWhile, h x (List.mem_cons_self _ _)]

/-- A `!` in front of a token without `!` is what `Trim` removes. -/
theorem Trim_bang (t : Str) (h : ∀ c ∈ t, c ≠ '!') :
    strings.Trim ('!' :: t) "!".toList = t := by
  have hp : ∀ xs : Str, (∀ c ∈ xs, c ≠ '!') →
      xs.dropWhile (fun r => decide (r ∈ "!".toList)) = xs := by
    intro xs hxs
    apply dropWhile_none
    intro c hc
    rw [show "!".toList = [('!' : Char)] from rfl]
    simpa using hxs c hc
  unfold strings.Trim
  have h1 : ('!' :: t).dropWhile (fun r => decide (r ∈ "!".toList)) = t := by
    rw [List.dropWhile_cons]
    rw [if_pos (by decide)]
    exact hp t h
  rw [h1, hp t.reverse (fun c hc => h c (List.mem_reverse.1 hc)), List.reverse_reverse]

theorem ToLower_lowercase (T : UnicodeTables) (t : Str)
    (h : ∀ c ∈ t, 0x61 ≤ c.toNat ∧ c.toNat ≤ 0x7A) : strings.ToLower T t = t := by
  unfold strings.ToLower
  conv_rhs => rw [← List.map_id t]
  apply List.map_congr_left
  intro c hc
  obtain ⟨h1, h2⟩ := h c hc
  unfold unicode.ToLower
  rw [if_pos (by omega), if_neg (by omega)]
  rfl

theorem IsSpace_lowercase (c : Char) (h : 0x61 ≤ c.toNat ∧ c.toNat ≤ 0x7A) :
    unicode.IsSpace c = false := by
  obtain ⟨h1, h2⟩ := h
  unfold unicode.IsSpace
  simp only []
  generalize c.toNat = n at h1 h2
  interval_cases n <;> rfl

/-- In a registry whose triggers are pairwise distinct, a trigger that is
lowercase and has neither `!` nor white space reaches its bang when the bang
has a `default` region. -/
theorem Detect_reaches (T : UnicodeTables) (b : Bangs) (region : Region) (l : Tag)
    (bng : Bang) (t : Str)
    (hnd : (b.Bangs.flatMap Bang.Triggers).Nodup) (hb : bng ∈ b.Bangs) (ht : t ∈ bng.Triggers)
    (hdef : hasDefault bng) (hne : t ≠ []) (hlow : strings.ToLower T t = t)
    (hbang : ∀ c ∈ t, c ≠ '!') (hsp : ∀ c ∈ t, unicode.IsSpace c = false) :
    ∃ tmpl, selected T bng region = some tmpl
      ∧ Detect T b ("!".toList ++ t ++ " x".toList) region l
        = some (fill tmpl (transform bng "x".toList) l, true) := by
  obtain ⟨tmpl, hsel⟩ := selected_isSome_of_default T bng region hdef
  refine ⟨tmpl, hsel, ?_⟩
  obtain ⟨bs1, bs2, hsplit⟩ := List.append_of_mem hb
  have hq : strings.Fields ("!".toList ++ t ++ " x".toList) = [] ++ ('!' :: t) :: ["x".toList] := by
    have hj : "!".toList ++ t ++ " x".toList
        = strings.Join ['!' :: t, "x".toList] " ".toList := by
      simp only [strings.Join]
      rw [show "!".toList = [('!' : Char)] from rfl, show " x".toList = [' ', 'x'] from rfl,
        show " ".toList = [(' ' : Char)] from rfl, show "x".toList = ['x'] from rfl]
      simp
    rw [hj, Fields_Join]
    · rfl
    · intro tok htok
      simp only [List.mem_cons, List.mem_singleton, List.not_mem_nil, or_false] at htok
      rcases htok with rfl | rfl
      · refine ⟨by simp, ?_⟩
        intro c hc
        rcases List.mem_cons.1 hc with rfl | hc
        · rfl
        · exact hsp c hc
      · decide
  have hkey : strings.ToLower T (strings.Trim ('!' :: t) "!".toList) = t := by
    rw [Trim_bang t hbang, hlow]
  have h := Detect_first T b ("!".toList ++ t ++ " x".toList) region l bs1 bs2 bng []
    ["x".toList] ('!' :: t) tmpl hq (by simp)
    (by
      rw [show "!".toList = [('!' : Char)] from rfl]
      intro he
      simp only [List.cons.injEq, true_and] at he
      exact hne he)
    (Or.inl (by
      rw [show "!".toList = [('!' : Char)] from rfl]
      simp [strings.HasPrefix]))
    hsplit
    (by
      rw [hkey]
      intro x hx hmem
      rw [hsplit, List.flatMap_append, List.flatMap_cons] at hnd
      have hdis := (List.nodup_append.1 hnd).2.2
      exact hdis (List.mem_flatMap.2 ⟨x, hx, hmem⟩) (List.mem_append_left _ ht))
    (by rw [hkey]; exact ht) hsel
  simpa [strings.Join] using h

/-- C18: in the registry built by `New` the triggers are pairwise distinct
across the bangs, and each is non-empty, lowercase and free of `!` and of
white space; for every bang and each of its triggers `t`, `Detect` on `!t x`
returns `true` with one of that bang's own templates filled with the bang's
transformations of `x`, whatever the region and the language. -/
theorem New_triggers_reachable (T : UnicodeTables) (region : Region) (l : Tag) :
    ((New T).Bangs.flatMap Bang.Triggers).Nodup
      ∧ (∀ bng ∈ (New T).Bangs, ∀ t ∈ bng.Triggers,
          t ≠ [] ∧ strings.ToLower T t = t ∧ (∀ c ∈ t, c ≠ '!')
            ∧ (∀ c ∈ t, unicode.IsSpace c = false)
            ∧ ∃ tmpl, (∃ key, (key, tmpl) ∈ bng.Regions)
              ∧ Detect T (New T) ("!".toList ++ t ++ " x".toList) region l
                = some (fill tmpl (transform bng "x".toList) l, true))
      ∧ Detect T (New T) "!so x".toList ⟨"".toList⟩ l
        = some ("https://stackoverflow.com/search?q=x".toList, true) := by
  have hnd : ((New T).Bangs.flatMap Bang.Triggers).Nodup := by
    rw [show (New T).Bangs.flatMap Bang.Triggers = newAscii.Bangs.flatMap Bang.Triggers from rfl]
    decide
  have hletters : ∀ bng ∈ (New T).Bangs, ∀ t ∈ bng.Triggers,
      t ≠ [] ∧ ∀ c ∈ t, 0x61 ≤ c.toNat ∧ c.toNat ≤ 0x7A := by
    have h : ∀ d ∈ (New T).Bangs.map (fun bng => (bng.Name, bng.Triggers, bng.Regions)),
        ∀ t ∈ d.2.1, t ≠ [] ∧ ∀ c ∈ t, 0x61 ≤ c.toNat ∧ c.toNat ≤ 0x7A := by
      rw [New_data]
      decide
    intro bng hb
    exact h _ (List.mem_map_of_mem _ hb)
  refine ⟨hnd, ?_, rfl⟩
  intro bng hb t ht
  obtain ⟨hne, hch⟩ := hletters bng hb t ht
  have hlow := ToLower_lowercase T t hch
  have hbang : ∀ c ∈ t, c ≠ '!' := by
    intro c hc he
    have := hch c hc
    rw [he] at this
    revert this
    decide
  have hsp : ∀ c ∈ t, unicode.IsSpace c = false := fun c hc => IsSpace_lowercase c (hch c hc)
  have hdef : hasDefault bng := by
    obtain ⟨u, hu⟩ := (New_has_default T bng hb)
    unfold hasDefault
    rw [hu]
    rfl
  obtain ⟨tmpl, hsel, hdet⟩ := Detect_reaches T (New T) region l bng t hnd hb ht hdef hne hlow
    hbang hsp
  obtain ⟨kt, hkt, rfl⟩ := selected_mem T bng region tmpl hsel
  exact ⟨hne, hlow, hbang, hsp, kt.2, ⟨kt.1, hkt⟩, hdet⟩

/-! ## Suggestions keep their triggers -/

theorem fillName_triggers (name : Str) (ts : List Str) (s : Suggestion) :
    (ts.foldl (fun s trigger => if trigger = s.Trigger then { s with Name := name } else s)
        s).Trigger = s.Trigger
      ∧ (s.Trigger ∉ ts →
        ts.foldl (fun s trigger => if trigger = s.Trigger then { s with Name := name } else s)
          s = s) := by
  induction ts generalizing s with
  | nil => exact ⟨rfl, fun _ => rfl⟩
  | cons t ts ih =>
    simp only [List.foldl_cons]
    by_cases ht : t = s.Trigger
    · rw [if_pos ht]
      refine ⟨(ih _).1, fun h => ?_⟩
      exact absurd (by rw [ht]; exact List.mem_cons_self _ _) h
    · rw [if_neg ht]
      refine ⟨(ih s).1, fun h => (ih s).2 (fun hm => h (List.mem_cons_of_mem _ hm))⟩

/-- `fillName` keeps the trigger, and keeps the whole suggestion when no bang
owns its trigger. -/
theorem fillName_frame (bangs : List Bang) (s : Suggestion) :
    (fillName bangs s).Trigger = s.Trigger
      ∧ ((∀ bng ∈ bangs, s.Trigger ∉ bng.Triggers) → fillName bangs s = s) := by
  unfold fillName
  induction bangs generalizing s with
  | nil => exact ⟨rfl, fun _ => rfl⟩
  | cons bng rest ih =>
    simp only [List.foldl_cons]
    obtain ⟨h1, h2⟩ := fillName_triggers bng.Name bng.Triggers s
    obtain ⟨h3, h4⟩ := ih (bng.Triggers.foldl
      (fun s trigger => if trigger = s.Trigger then { s with Name := bng.Name } else s) s)
    refine ⟨by rw [h3, h1], fun h => ?_⟩
    have hs := h2 (h bng (List.mem_cons_self _ _))
    rw [hs] at h4 ⊢
    exact h4 (fun x hx => h x (List.mem_cons_of_mem _ hx))

/-- C17: when the backend succeeds `Suggest` returns as many suggestions as
the backend, in the same order and with the same triggers, and a suggestion
whose trigger no bang owns is returned as it was; when the backend fails its
result and error are returned as they are. -/
theorem Suggest_only_fills_names (b : Bangs) (sg : Suggester) (term : Str) (size : Int)
    (hsg : b.Suggester = some sg) :
    ((sg.suggest term size).2 = none →
        ∃ out, Suggest b term size = some (out, none)
          ∧ out.Suggestions.length = (sg.suggest term size).1.Suggestions.length
          ∧ out.Suggestions.map Suggestion.Trigger
            = (sg.suggest term size).1.Suggestions.map Suggestion.Trigger
          ∧ List.Forall₂
            (fun o s => (∀ bng ∈ b.Bangs, s.Trigger ∉ bng.Triggers) → o = s)
            out.Suggestions (sg.suggest term size).1.Suggestions)
      ∧ ((sg.suggest term size).2 ≠ none →
        Suggest b term size = some (sg.suggest term size)) := by
  cases hres : sg.suggest term size with
  | mk res err =>
    constructor
    · intro herr
      simp only at herr
      subst herr
      refine ⟨{ Suggestions := res.Suggestions.map (fillName b.Bangs) }, ?_, ?_, ?_, ?_⟩
      · simp [Suggest, hsg, hres]
      · simp
      · simp only [List.map_map]
        apply List.map_congr_left
        intro s _
        exact (fillName_frame b.Bangs s).1
      · simp only
        induction res.Suggestions with
        | nil => exact List.Forall₂.nil
        | cons s tl ih =>
          exact List.Forall₂.cons (fillName_frame b.Bangs s).2 ih
    · intro herr
      simp only at herr
      simp [Suggest, hsg, hres, herr]

/-- Witness of C17: the registry `collidingOwners` and a backend that
suggests `x`, which two bangs own, and `y`, which none owns. -/
theorem Suggest_only_fills_names_witness :
    ∃ out, Suggest (collidingOwners (some twoSuggestions)) "x".toList 10 = some (out, none)
      ∧ out.Suggestions.length = 2
      ∧ out.Suggestions.map Suggestion.Trigger = ["x".toList, "y".toList]
      ∧ List.Forall₂
        (fun o s => (∀ bng ∈ (collidingOwners (some twoSuggestions)).Bangs,
          s.Trigger ∉ bng.Triggers) → o = s)
        out.Suggestions
        [{ Trigger := "x".toList, Name := "old".toList },
          { Trigger := "y".toList, Name := "kept".toList }] :=
  (Suggest_only_fills_names (collidingOwners (some twoSuggestions)) twoSuggestions "x".toList 10
    rfl).1 rfl

/-! ## The stock quote answerer: `solve` -/

/-- The case mappings on an ASCII letter: its lowercase form is a lowercase
letter and no separator, its uppercase form is an uppercase letter, and the
title case of the former is the latter. -/
theorem letter_facts (T : UnicodeTables) (c : Char) (h : isAsciiLetter c) :
    strings.isSeparator T (unicode.ToLower T c) = false
      ∧ unicode.ToTitle T (unicode.ToLower T c) = unicode.ToUpper T c
      ∧ (0x41 ≤ (unicode.ToUpper T c).toNat ∧ (unicode.ToUpper T c).toNat ≤ 0x5A)
      ∧ (0x61 ≤ (unicode.ToLower T c).toNat ∧ (unicode.ToLower T c).toNat ≤ 0x7A) := by
  have hb : (strings.isSeparator T (unicode.ToLower T c) = false
      ∧ unicode.ToTitle T (unicode.ToLower T c) = unicode.ToUpper T c)
      ∧ decide (0x41 ≤ (unicode.ToUpper T c).toNat ∧ (unicode.ToUpper T c).toNat ≤ 0x5A) = true
      ∧ decide (0x61 ≤ (unicode.ToLower T c).toNat ∧ (unicode.ToLower T c).toNat ≤ 0x7A)
        = true := by
    have hc : Char.ofNat c.toNat = c := Char.ofNat_toNat c
    unfold isAsciiLetter at h
    generalize c.toNat = n at h hc
    subst hc
    rcases h with ⟨h1, h2⟩ | ⟨h1, h2⟩
    · interval_cases n <;> exact ⟨⟨rfl, rfl⟩, rfl, rfl⟩
    · interval_cases n <;> exact ⟨⟨rfl, rfl⟩, rfl, rfl⟩
  exact ⟨hb.1.1, hb.1.2, of_decide_eq_true hb.2.1, of_decide_eq_true hb.2.2⟩

theorem replaceAux_remove (x : Char) (s : Str) :
    strings.replaceAux [x] [] 0 s = s.filter (fun c => decide (c ≠ x)) := by
  induction s with
  | nil => rfl
  | cons r rs ih =>
    by_cases hr : r = x
    · simp [strings.replaceAux, hr, ih]
    · simp [strings.replaceAux, hr, ih]

theorem filter_all {α : Type} (p : α → Bool) (xs : List α) (h : ∀ x ∈ xs, p x = true) :
    xs.filter p = xs := List.filter_eq_self.2 h

/-- On a ticker of the specification, removing every `$` is removing the
leading one, and what is left is letters and at most a dot. -/
theorem ticker_dollar (rem : Str) (h : isTicker rem) :
    strings.ReplaceAll rem "$".toList [] = stripLeadingDollar rem
      ∧ ∀ c ∈ stripLeadingDollar rem, c = '.' ∨ isAsciiLetter c := by
  obtain ⟨d, l1, dot, l2, rfl, hd, h1, -, hl1, hdot, -, hl2⟩ := h
  have hbody : ∀ c ∈ l1 ++ dot ++ l2, c = '.' ∨ isAsciiLetter c := by
    intro c hc
    simp only [List.mem_append] at hc
    rcases hc with (hc | hc) | hc
    · exact Or.inr (hl1 c hc)
    · rcases hdot with rfl | rfl
      · simp at hc
      · left; simpa using hc
    · exact Or.inr (hl2 c hc)
  have hnd : ∀ c ∈ l1 ++ dot ++ l2, decide (c ≠ '$') = true := by
    intro c hc
    rcases hbody c hc with rfl | hl
    · decide
    · simp only [ne_eq, decide_not, Bool.not_eq_true', decide_eq_false_iff_not]
      intro he
      rw [he] at hl
      revert hl
      decide
  have hrep : ∀ x : Str, strings.ReplaceAll x "$".toList [] = x.filter (fun c => decide (c ≠ '$')) := by
    intro x
    unfold strings.ReplaceAll
    rw [show "$".toList = [('$' : Char)] from rfl, if_neg (by simp), replaceAux_remove]
  have hstrip : stripLeadingDollar (d ++ l1 ++ dot ++ l2) = l1 ++ dot ++ l2 := by
    rcases hd with rfl | rfl
    · cases l1 with
      | nil => simp at h1
      | cons c cs =>
        have hc : c ≠ '$' := by
          intro he
          have := hl1 c (List.mem_cons_self _ _)
          rw [he] at this
          revert this
          decide
        simp only [List.nil_append, List.cons_append]
        unfold stripLeadingDollar
        split
        · rename_i heq
          simp only [List.cons.injEq] at heq
          exact absurd heq.1 hc
        · rfl
    · rfl
  refine ⟨?_, by rw [hstrip]; exact hbody⟩
  rw [hrep, hstrip]
  rcases hd with rfl | rfl
  · simpa using filter_all _ _ hnd
  · have := filter_all _ _ hnd
    simp only [List.append_assoc, List.singleton_append] at this ⊢
    rw [List.cons_append, List.filter_cons_of_neg (by simp)]
    exact this

/-- C14: when the remainder is a ticker of the specification, the ticker that
`solve` passes to `Fetch` is the remainder without its leading `$`,
uppercased; it has no `$` and no lowercase letter, and `solve` stores what
`Fetch` returns for it; `brk.a` gives `BRK.A` and `$aapl` gives `AAPL`. -/
theorem solve_ticker_normalized {Quote : Type} (T : UnicodeTables)
    (SortHistorical : Option Quote → Option Quote) (s : StockQuote Quote) (f : Fetcher Quote)
    (hf : s.Fetcher = some f) (hrem : isTicker s.Answer.remainder) :
    StockQuote.ticker T s = strings.ToUpper T (stripLeadingDollar s.Answer.remainder)
      ∧ (∀ c ∈ StockQuote.ticker T s, c ≠ '$' ∧ ¬ (0x61 ≤ c.toNat ∧ c.toNat ≤ 0x7A))
      ∧ StockQuote.solve T SortHistorical s
        = some (match f.Fetch (strings.ToUpper T (stripLeadingDollar s.Answer.remainder)) with
          | (_, some err) => { s with Answer := { s.Answer with Err := some err } }
          | (resp, none) =>
            { s with Answer := { s.Answer with Solution := some (SortHistorical resp) } })
      ∧ StockQuote.ticker T { s with Answer := { s.Answer with remainder := "brk.a".toList } }
        = "BRK.A".toList
      ∧ StockQuote.ticker T { s with Answer := { s.Answer with remainder := "$aapl".toList } }
        = "AAPL".toList := by
  obtain ⟨hrep, hbody⟩ := ticker_dollar s.Answer.remainder hrem
  have htk : StockQuote.ticker T s
      = strings.ToUpper T (stripLeadingDollar s.Answer.remainder) := by
    unfold StockQuote.ticker
    rw [hrep]
  refine ⟨htk, ?_, ?_, rfl, rfl⟩
  · rw [htk]
    intro c hc
    unfold strings.ToUpper at hc
    obtain ⟨d, hd, rfl⟩ := List.mem_map.1 hc
    rcases hbody d hd with rfl | hl
    · rw [show unicode.ToUpper T '.' = '.' from rfl]
      exact ⟨by decide, by decide⟩
    · obtain ⟨-, -, ⟨hu1, hu2⟩, -⟩ := letter_facts T d hl
      refine ⟨?_, by omega⟩
      intro he
      rw [he] at hu1
      revert hu1
      decide
  · unfold StockQuote.solve
    rw [hf]
    simp only [htk]
    split <;> rfl

/-- Witness of C14: the remainder `$aapl`. -/
theorem solve_ticker_normalized_witness :
    StockQuote.ticker asciiTables (stockAnswerer "$aapl".toList)
      = strings.ToUpper asciiTables (stripLeadingDollar "$aapl".toList) :=
  (solve_ticker_normalized asciiTables id (stockAnswerer "$aapl".toList) oneQuote rfl
    ⟨['$'], "aapl".toList, [], [], by decide, by decide, by decide, by decide, by decide,
      by decide, by decide, by decide⟩).1

/-- C15: when `Fetch` fails with an error, `solve` stores the error in `Err`
and leaves `Solution`, `Triggered`, `Type`, `Cache` and `remainder` as they
were; when `Fetch` succeeds with a quote, `solve` stores the quote sorted by
`SortHistorical` in `Solution` and leaves `Err` as it was. -/
theorem solve_error_handling {Quote : Type} (T : UnicodeTables)
    (SortHistorical : Option Quote → Option Quote) (s : StockQuote Quote) (f : Fetcher Quote)
    (hf : s.Fetcher = some f) :
    (∀ resp e, f.Fetch (StockQuote.ticker T s) = (resp, some e) →
        ∃ s2, StockQuote.solve T SortHistorical s = some s2
          ∧ s2.Answer.Err = some e
          ∧ s2.Answer.Solution = s.Answer.Solution
          ∧ s2.Answer.Triggered = s.Answer.Triggered
          ∧ s2.Answer.Typ = s.Answer.Typ
          ∧ s2.Answer.Cache = s.Answer.Cache
          ∧ s2.Answer.remainder = s.Answer.remainder)
      ∧ (∀ resp, f.Fetch (StockQuote.ticker T s) = (resp, none) →
        ∃ s2, StockQuote.solve T SortHistorical s = some s2
          ∧ s2.Answer.Solution = some (SortHistorical resp)
          ∧ s2.Answer.Err = s.Answer.Err) := by
  constructor
  · intro resp e h
    refine ⟨{ s with Answer := { s.Answer with Err := some e } }, ?_, rfl, rfl, rfl, rfl, rfl, rfl⟩
    simp [StockQuote.solve, hf, h]
  · intro resp h
    refine ⟨{ s with Answer := { s.Answer with Solution := some (SortHistorical resp) } }, ?_,
      rfl, rfl⟩
    simp [StockQuote.solve, hf, h]

/-- Witness of C15: the fetcher `oneQuote` fails on `AAPL`. -/
theorem solve_error_handling_witness :
    ∃ s2, StockQuote.solve asciiTables id (stockAnswerer "aapl".toList) = some s2
      ∧ s2.Answer.Err = some "unknown ticker".toList
      ∧ s2.Answer.Solution = (stockAnswerer "aapl".toList).Answer.Solution
      ∧ s2.Answer.Triggered = (stockAnswerer "aapl".toList).Answer.Triggered
      ∧ s2.Answer.Typ = (stockAnswerer "aapl".toList).Answer.Typ
      ∧ s2.Answer.Cache = (stockAnswerer "aapl".toList).Answer.Cache
      ∧ s2.Answer.remainder = (stockAnswerer "aapl".toList).Answer.remainder :=
  (solve_error_handling asciiTables id (stockAnswerer "aapl".toList) oneQuote rfl).1 none
    "unknown ticker".toList (by decide)

/-! ## The Wikipedia bang on words of letters -/

theorem fieldsAux_nonempty (s cur t : Str) (ht : t ∈ strings.fieldsAux s cur) : t ≠ [] := by
  induction s generalizing cur with
  | nil =>
    by_cases hc : cur = []
    · simp [strings.fieldsAux, hc] at ht
    · simp only [strings.fieldsAux, hc, if_false, List.mem_singleton] at ht
      rw [ht]; exact hc
  | cons r rs ih =>
    rw [strings.fieldsAux] at ht
    split at ht
    · split at ht
      · exact ih [] ht
      · rename_i hc
        rcases List.mem_cons.1 ht with rfl | ht
        · exact hc
        · exact ih [] ht
    · exact ih _ ht

/-- A token made of ASCII letters does not fire. -/
theorem letters_not_fire (T : UnicodeTables) (bangs : List Bang) (f : Str)
    (h : ∀ c ∈ f, isAsciiLetter c) : ¬ fires T bangs f := by
  have hno : ¬ isAsciiLetter '!' := by decide
  rintro ⟨-, hbang, -⟩
  rcases hbang with hp | hs
  · unfold strings.HasPrefix at hp
    have hp2 := of_decide_eq_true hp
    apply hno
    apply h
    apply List.mem_of_mem_take (n := "!".toList.length)
    rw [hp2]
    decide
  · unfold strings.HasSuffix at hs
    have hs2 := of_decide_eq_true hs
    apply hno
    apply h
    apply List.mem_of_mem_drop (n := f.length - "!".toList.length)
    rw [hs2]
    decide

/-- `wikipediaCanonical` on words of ASCII letters joined by single spaces:
each word capitalized, joined by underscores; no opening brace comes out. -/
theorem wikipediaCanonical_letters (T : UnicodeTables) (toks : List Str)
    (h : ∀ t ∈ toks, t ≠ [] ∧ ∀ c ∈ t, isAsciiLetter c) :
    wikipediaCanonical T (strings.Join toks " ".toList)
        = strings.Join (toks.map (capitalizeWord T)) "_".toList
      ∧ ∀ c ∈ strings.Join (toks.map (capitalizeWord T)) "_".toList, c ≠ '\x7b' := by
  constructor
  · unfold wikipediaCanonical strings.Title strings.ToLower
    have hlow : (strings.Join toks " ".toList).map (unicode.ToLower T)
        = strings.Join (toks.map (List.map (unicode.ToLower T))) " ".toList := by
      rw [map_Join]; rfl
    have hwords : ∀ w ∈ toks.map (List.map (unicode.ToLower T)),
        w ≠ [] ∧ ∀ c ∈ w, strings.isSeparator T c = false := by
      intro w hw
      obtain ⟨t, ht, rfl⟩ := List.mem_map.1 hw
      refine ⟨by simpa using (h t ht).1, ?_⟩
      intro c hc
      obtain ⟨d, hd, rfl⟩ := List.mem_map.1 hc
      exact (letter_facts T d ((h t ht).2 d hd)).1
    rw [hlow, titleAux_Join T _ ' ' rfl hwords, ReplaceAll_space, map_Join, List.map_map,
      List.map_map]
    rw [show List.map (fun c => if c = ' ' then '_' else c) " ".toList = "_".toList from rfl]
    congr 1
    apply List.map_congr_left
    intro t ht
    obtain ⟨hne, hch⟩ := h t ht
    simp only [Function.comp]
    cases t with
    | nil => exact absurd rfl hne
    | cons c cs =>
      obtain ⟨-, htitle, ⟨hu1, -⟩, -⟩ := letter_facts T c (hch c (List.mem_cons_self _ _))
      have hup : unicode.ToUpper T c ≠ ' ' := by
        intro he
        rw [he] at hu1
        revert hu1
        decide
      simp only [List.map_cons, capitalizeFirst, capitalizeWord, htitle, hup, if_false,
        List.cons.injEq, true_and, strings.ToLower]
      conv_rhs => rw [← List.map_id (List.map (unicode.ToLower T) cs)]
      apply List.map_congr_left
      intro d hd
      obtain ⟨e, he, rfl⟩ := List.mem_map.1 hd
      obtain ⟨-, -, -, hl1, -⟩ := letter_facts T e (hch e (List.mem_cons_of_mem _ he))
      have hlo : unicode.ToLower T e ≠ ' ' := by
        intro heq
        rw [heq] at hl1
        revert hl1
        decide
      simp [hlo]
  · intro c hc
    rcases Join_chars _ _ c hc with hu | ⟨w, hw, hcw⟩
    · rw [show "_".toList = [('_' : Char)] from rfl, List.mem_singleton] at hu
      rw [hu]; decide
    · obtain ⟨t, ht, rfl⟩ := List.mem_map.1 hw
      obtain ⟨hne, hch⟩ := h t ht
      cases t with
      | nil => exact absurd rfl hne
      | cons x xs =>
        simp only [capitalizeWord, List.mem_cons, strings.ToLower, List.mem_map] at hcw
        rcases hcw with rfl | ⟨e, he, rfl⟩
        · obtain ⟨-, -, ⟨-, hu2⟩, -⟩ := letter_facts T x (hch x (List.mem_cons_self _ _))
          intro heq
          rw [heq] at hu2
          revert hu2
          decide
        · obtain ⟨-, -, -, -, hl2⟩ := letter_facts T e (hch e (List.mem_cons_of_mem _ he))
          intro heq
          rw [heq] at hl2
          revert hl2
          decide

/-- A well-formed template filled with a remainder without opening brace is
its pieces, each rendered. -/
theorem fill_pieces (tmpl remainder : Str) (l : Tag) (hw : wellFormedTemplate tmpl)
    (hrem : ∀ c ∈ remainder, c ≠ '\x7b') :
    fill tmpl remainder l = (pieces 0 tmpl).flatMap (Piece.render remainder l.String) := by
  obtain ⟨hsrc, hps⟩ := hw
  unfold fill strings.ReplaceAll
  rw [if_neg (by decide), if_neg (by decide)]
  conv_lhs => rw [← hsrc]
  rw [replace_term_pieces _ _ hps, replace_lang_pieces _ _ _ hps hrem]

theorem flatMap_chr (xs remainder lang : Str) :
    (xs.map Piece.chr).flatMap (Piece.render remainder lang) = xs := by
  induction xs with
  | nil => rfl
  | cons x xs ih => simp [List.flatMap_cons, Piece.render, ih]

/-- The English Wikipedia template filled with a remainder without opening
brace. -/
theorem fill_wikipedia (remainder : Str) (l : Tag) (hrem : ∀ c ∈ remainder, c ≠ '\x7b') :
    fill "https://en.wikipedia.org/wiki/\x7b\x7b\x7bterm\x7d\x7d\x7d".toList remainder l
      = "https://en.wikipedia.org/wiki/".toList ++ remainder := by
  rw [fill_pieces _ _ _ (by decide) hrem]
  have hp : pieces 0 "https://en.wikipedia.org/wiki/\x7b\x7b\x7bterm\x7d\x7d\x7d".toList
      = "https://en.wikipedia.org/wiki/".toList.map Piece.chr ++ [Piece.term] := by decide
  rw [hp, List.flatMap_append, flatMap_chr]
  simp [Piece.render]

/-- The Wikipedia bang is the last bang of the default registry. -/
theorem New_wikipedia (T : UnicodeTables) :
    (New T).Bangs = newAscii.Bangs.take 9 ++
      { Name := "Wikipedia".toList, Triggers := ["w".toList, "wikipedia".toList],
        Regions := [
          (defKey, "https://en.wikipedia.org/wiki/\x7b\x7b\x7bterm\x7d\x7d\x7d".toList),
          ("es".toList, "https://es.wikipedia.org/wiki/\x7b\x7b\x7bterm\x7d\x7d\x7d".toList),
          ("de".toList, "https://de.wikipedia.org/wiki/\x7b\x7b\x7bterm\x7d\x7d\x7d".toList),
          ("fr".toList, "https://fr.wikipedia.org/wiki/\x7b\x7b\x7bterm\x7d\x7d\x7d".toList)],
        Transformations := [wikipediaCanonical T] } :: [] := rfl

/-- C11: in the default registry, when the token with key `w` (or
`wikipedia`) is the only bang token of the query, the other tokens are made
of ASCII letters and the region has no Wikipedia entry of its own, `Detect`
returns the English Wikipedia address followed by the other tokens, each
with its first letter uppercased and the rest lowercased, joined by
underscores; `bob maRLey` becomes `Bob_Marley` and `hello !w bob marley`
gives `Hello_Bob_Marley`. -/
theorem Detect_wikipedia_letters (T : UnicodeTables) (q : Str) (region : Region) (l : Tag)
    (pre post : List Str) (tok : Str)
    (hq : strings.Fields q = pre ++ tok :: post)
    (hne : tok ≠ "!".toList)
    (hbang : strings.HasPrefix tok "!".toList = true ∨ strings.HasSuffix tok "!".toList = true)
    (hkey : strings.ToLower T (strings.Trim tok "!".toList) = "w".toList
      ∨ strings.ToLower T (strings.Trim tok "!".toList) = "wikipedia".toList)
    (hletters : ∀ t ∈ pre ++ post, ∀ c ∈ t, isAsciiLetter c)
    (hreg : strings.ToLower T region.String ∉ ["es".toList, "de".toList, "fr".toList]) :
    Detect T (New T) q region l
        = some ("https://en.wikipedia.org/wiki/".toList
            ++ strings.Join ((pre ++ post).map (capitalizeWord T)) "_".toList, true)
      ∧ wikipediaCanonical T "bob maRLey".toList = "Bob_Marley".toList
      ∧ ∀ l2 : Tag, Detect T (New T) "hello !w bob marley".toList ⟨"".toList⟩ l2
        = some ("https://en.wikipedia.org/wiki/Hello_Bob_Marley".toList, true) := by
  refine ⟨?_, rfl, fun l2 => rfl⟩
  have htoks : ∀ t ∈ pre ++ post, t ≠ [] ∧ ∀ c ∈ t, isAsciiLetter c := by
    intro t ht
    refine ⟨?_, hletters t ht⟩
    apply fieldsAux_nonempty q [] t
    show t ∈ strings.Fields q
    rw [hq]
    rcases List.mem_append.1 ht with h | h
    · exact List.mem_append_left _ h
    · exact List.mem_append_right _ (List.mem_cons_of_mem _ h)
  obtain ⟨hcanon, hnb⟩ := wikipediaCanonical_letters T (pre ++ post) htoks
  simp only [List.mem_cons, List.mem_singleton, List.not_mem_nil, or_false, not_or] at hreg
  obtain ⟨hes, hde, hfr⟩ := hreg
  have hsel : selected T
      { Name := "Wikipedia".toList, Triggers := ["w".toList, "wikipedia".toList],
        Regions := [
          (defKey, "https://en.wikipedia.org/wiki/\x7b\x7b\x7bterm\x7d\x7d\x7d".toList),
          ("es".toList, "https://es.wikipedia.org/wiki/\x7b\x7b\x7bterm\x7d\x7d\x7d".toList),
          ("de".toList, "https://de.wikipedia.org/wiki/\x7b\x7b\x7bterm\x7d\x7d\x7d".toList),
          ("fr".toList, "https://fr.wikipedia.org/wiki/\x7b\x7b\x7bterm\x7d\x7d\x7d".toList)],
        Transformations := [wikipediaCanonical T] } region
      = some "https://en.wikipedia.org/wiki/\x7b\x7b\x7bterm\x7d\x7d\x7d".toList := by
    unfold selected
    by_cases hk : defKey = strings.ToLower T region.String
    · simp only [mapLookup, hk, if_true]
    · simp only [mapLookup, hk, Ne.symm hes, Ne.symm hde, Ne.symm hfr, if_false, if_true]
  have h1 : ∀ x ∈ newAscii.Bangs.take 9,
      strings.ToLower T (strings.Trim tok "!".toList) ∉ x.Triggers := by
    rcases hkey with hk | hk <;> rw [hk] <;> decide
  have h2 : strings.ToLower T (strings.Trim tok "!".toList)
      ∈ ["w".toList, "wikipedia".toList] := by
    rcases hkey with hk | hk <;> rw [hk] <;> decide
  have hdet := Detect_first T (New T) q region l _ _ _ pre post tok _ hq
    (fun f hf => letters_not_fire T _ f (hletters f (List.mem_append_left _ hf)))
    hne hbang (New_wikipedia T) h1 h2 hsel
  rw [hdet]
  have htr : transform
      { Name := "Wikipedia".toList, Triggers := ["w".toList, "wikipedia".toList],
        Regions := [
          (defKey, "https://en.wikipedia.org/wiki/\x7b\x7b\x7bterm\x7d\x7d\x7d".toList),
          ("es".toList, "https://es.wikipedia.org/wiki/\x7b\x7b\x7bterm\x7d\x7d\x7d".toList),
          ("de".toList, "https://de.wikipedia.org/wiki/\x7b\x7b\x7bterm\x7d\x7d\x7d".toList),
          ("fr".toList, "https://fr.wikipedia.org/wiki/\x7b\x7b\x7bterm\x7d\x7d\x7d".toList)],
        Transformations := [wikipediaCanonical T] }
      (strings.Join (pre ++ post) " ".toList)
      = wikipediaCanonical T (strings.Join (pre ++ post) " ".toList) := rfl
  rw [htr, hcanon, fill_wikipedia _ l hnb]

/-- Witness of C11: `hello !w bob maRLey` with the region US. -/
theorem Detect_wikipedia_letters_witness :
    Detect asciiTables newAscii "hello !w bob maRLey".toList ⟨"US".toList⟩ ⟨"en".toList⟩
      = some ("https://en.wikipedia.org/wiki/".toList
          ++ strings.Join ((["hello".toList] ++ ["bob".toList, "maRLey".toList]).map
            (capitalizeWord asciiTables)) "_".toList, true) :=
  (Detect_wikipedia_letters asciiTables "hello !w bob maRLey".toList ⟨"US".toList⟩
    ⟨"en".toList⟩ ["hello".toList] ["bob".toList, "maRLey".toList] "!w".toList
    (by decide) (by decide) (by decide) (by decide) (by decide) (by decide)).1

end Jivesearch
